import Mathlib

/-!
# Verification of the agent-safe SPL core (Rust SDK) against its specification

Shallow embedding of `src/sdk/rust/src/{types,parser,evaluator,token,crypto}.rs`.

Modelling conventions:
* Rust `f64` is modelled by `F64` below: NaN, signed infinities, and finite
  values carried as exact rationals.  IEEE rounding of decimal literals is not
  modelled (values are kept exact); every concrete number exercised by a
  theorem in this file is exactly representable in binary64, where the model
  and `f64` agree.  Display of non-integer finite values is a placeholder
  (Rust prints shortest round-trip decimals); no theorem depends on it.
  Integer-valued floats display without a decimal point, as in Rust.
* Rust `i64` gas is modelled by `Int` (the evaluator only ever decrements gas,
  so `i64` wrap-around is unreachable for any budget above `i64::MIN`).
* Rust panics (out-of-bounds slice indexing, `usize` underflow) are modelled
  by an explicit `panic` outcome, distinct from `SplError` results.
* `HashMap<String, Node>` is modelled as `String → Option Node`; the boxed
  host callbacks of `Env` are plain function/boolean fields.
* Rust `String`/`&str` is Lean `String` (a list of chars); the byte-size cap
  uses `String.utf8ByteSize`, matching Rust's `str::len`.  `str::trim` and
  `str::split_whitespace` use the Unicode `White_Space` set (`isUniWs`); the
  tokenizer's own whitespace set is exactly `' ' '\n' '\t' '\r'` as in the
  `match` of `tokenize` in `parser.rs`.
-/

/-- Model of Rust `f64` values (see conventions above). -/
inductive F64 where
  | nan : F64
  | inf (neg : Bool) : F64
  | finite (q : ℚ) : F64
deriving DecidableEq

/-- IEEE `==` on `f64`: NaN equals nothing, infinities compare by sign,
finite values by value.  (`-0.0` and `0.0` are identified by the model.) -/
def F64.beq : F64 → F64 → Bool
  | .nan, _ => false
  | _, .nan => false
  | .inf a, .inf b => a == b
  | .inf _, .finite _ => false
  | .finite _, .inf _ => false
  | .finite p, .finite q => p == q

/-- IEEE `<` on `f64`: false whenever NaN is involved. -/
def F64.lt : F64 → F64 → Bool
  | .nan, _ => false
  | _, .nan => false
  | .inf true, .inf true => false
  | .inf true, _ => true
  | .inf false, _ => false
  | .finite _, .inf b => !b
  | .finite p, .finite q => p < q

/-- IEEE `<=`: `a <= b ↔ a < b ∨ a == b` (false whenever NaN is involved). -/
def F64.le (a b : F64) : Bool := a.lt b || a.beq b

/-- `types.rs`: AST node / runtime value (`enum Node`). -/
inductive Node where
  | bool (b : Bool)
  | number (n : F64)
  | str (s : String)
  | symbol (s : String)
  | list (items : List Node)
  | nil
deriving Inhabited

mutual
/-- Structural equality of embedded nodes (Rust `#[derive(PartialEq)]` is
bitwise-structural; on `Number` it uses IEEE `==` — here `F64.beq` —, so this
boolean equality is exactly Rust's `==` on `Node`). -/
def Node.beq : Node → Node → Bool
  | .bool a, .bool b => a == b
  | .number a, .number b => F64.beq a b
  | .str a, .str b => a == b
  | .symbol a, .symbol b => a == b
  | .list a, .list b => Node.beqList a b
  | .nil, .nil => true
  | _, _ => false

def Node.beqList : List Node → List Node → Bool
  | [], [] => true
  | a :: as, b :: bs => Node.beq a b && Node.beqList as bs
  | _, _ => false
end

mutual
/-- Total number of AST nodes, counting every node including leaves and
operator head symbols (the "node count" of the spec's gas properties). -/
def nodeCount : Node → Nat
  | .bool _ => 1
  | .number _ => 1
  | .str _ => 1
  | .symbol _ => 1
  | .nil => 1
  | .list items => 1 + nodeCountList items

def nodeCountList : List Node → Nat
  | [] => 0
  | x :: xs => nodeCount x + nodeCountList xs
end

/-- Decimal digit character for `n < 10` (used by the integer printer). -/
def digitChar : Nat → Char
  | 0 => '0' | 1 => '1' | 2 => '2' | 3 => '3' | 4 => '4'
  | 5 => '5' | 6 => '6' | 7 => '7' | 8 => '8' | 9 => '9'
  | _ => '*'

/-- Decimal digits of a natural number, most significant first
(fuelled helper; `fuel > n` suffices). -/
def natDigitsAux : Nat → Nat → List Char
  | 0, _ => []
  | fuel + 1, n =>
    if n < 10 then [digitChar n]
    else natDigitsAux fuel (n / 10) ++ [digitChar (n % 10)]

def natDigits (n : Nat) : List Char := natDigitsAux (n + 1) n

/-- Rust `format!("{n}")` on an `f64`, as chars.  Faithful on NaN, the
infinities and integer values (Rust prints integer-valued floats without a
decimal point and its shortest-round-trip rendering of an exactly
representable integer is its plain decimal expansion).  Non-integer finite
values get a `num/den` placeholder — Rust prints decimals there; no theorem
in this file evaluates it. -/
def f64DisplayChars : F64 → List Char
  | .nan => ['N', 'a', 'N']
  | .inf false => ['i', 'n', 'f']
  | .inf true => ['-', 'i', 'n', 'f']
  | .finite q =>
    if q.den = 1 then
      (if q.num < 0 then '-' :: natDigits q.num.natAbs else natDigits q.num.natAbs)
    else
      (if q.num < 0 then '-' :: natDigits q.num.natAbs else natDigits q.num.natAbs)
        ++ '/' :: natDigits q.den

mutual
/-- `impl fmt::Display for Node` (`types.rs` lines 15–34), producing chars:
`#t`/`#f`, numbers via `{n}`, strings re-quoted (NO escaping of inner
quotes), symbols bare, lists parenthesized with single-space separators,
`Nil` as `nil`. -/
def displayChars : Node → List Char
  | .bool true => ['#', 't']
  | .bool false => ['#', 'f']
  | .number n => f64DisplayChars n
  | .str s => '"' :: s.data ++ ['"']
  | .symbol s => s.data
  | .nil => ['n', 'i', 'l']
  | .list items => '(' :: displayCharsList items ++ [')']

/-- Children of a displayed list: space-separated displays. -/
def displayCharsList : List Node → List Char
  | [] => []
  | [x] => displayChars x
  | x :: y :: xs => displayChars x ++ ' ' :: displayCharsList (y :: xs)
end

/-- The canonical display of a node as a string. -/
def displayStr (n : Node) : String := String.mk (displayChars n)

/-- `evaluator.rs` `node_to_string`: canonical string rendering used by
`before` and by the cross-variant equality fallback. -/
def nodeToString : Node → String
  | .bool true => "true"
  | .bool false => "false"
  | .number n => String.mk (f64DisplayChars n)
  | .str s => s
  | .symbol s => s
  | .nil => "nil"
  | .list items => displayStr (.list items)

/-- `evaluator.rs` `node_eq`: structural same-variant compare, deliberate
`Str`/`Symbol` cross coercion, otherwise fall back to comparing canonical
string renderings. -/
def nodeEq (a b : Node) : Bool :=
  match a, b with
  | .bool x, .bool y => x == y
  | .number x, .number y => F64.beq x y
  | .str x, .str y => x == y
  | .symbol x, .symbol y => x == y
  | .str x, .symbol y => x == y
  | .symbol x, .str y => x == y
  | .nil, .nil => true
  | _, _ => nodeToString a == nodeToString b

/-- `types.rs` `Node::is_truthy`. -/
def isTruthy : Node → Bool
  | .bool b => b
  | .nil => false
  | .number n => !(F64.beq n (.finite 0))
  | .str _ => true
  | .symbol _ => true
  | .list _ => true

/-- `types.rs` `Node::as_f64`: numbers yield their value, everything else 0.0. -/
def asF64 : Node → F64
  | .number n => n
  | .bool _ => .finite 0
  | .str _ => .finite 0
  | .symbol _ => .finite 0
  | .list _ => .finite 0
  | .nil => .finite 0

/-- `types.rs` `struct Env` (callbacks un-boxed; maps as lookup functions). -/
structure Env where
  req : String → Option Node
  vars : String → Option Node
  perDayCount : String → String → Int
  dpopOk : Bool
  merkleOk : List Node → Bool
  vrfOk : String → F64 → Bool
  threshOk : Bool
  maxGas : Int
  sealed : Bool
  strict : Bool

/-- `Env::default()`: empty maps, all-false callbacks, zero counter,
`max_gas = 10000`. -/
def Env.default : Env where
  req := fun _ => none
  vars := fun _ => none
  perDayCount := fun _ _ => 0
  dpopOk := false
  merkleOk := fun _ => false
  vrfOk := fun _ _ => false
  threshOk := false
  maxGas := 10000
  sealed := false
  strict := false

/-- Outcome of evaluating: a value, an `SplError` message, or a Rust panic
(out-of-bounds `args[i]` indexing aborts the process; see conventions). -/
inductive EvalResult where
  | ok (v : Node)
  | err (e : String)
  | panic

/-- Outcome of evaluating a whole argument list (for `tuple`/`merkle_ok?`). -/
inductive ArgsResult where
  | vals (vs : List Node)
  | err (e : String)
  | panic

/-- `evaluator.rs` `resolve_symbol`: `#t`/`#f` are booleans, `req` returns
the `Str "__req__"` wrapper, `now` and every other name resolve through
`env.vars` with the bare symbol as fallback. -/
def resolveSymbol (name : String) (env : Env) : EvalResult :=
  if name = "#t" then .ok (.bool true)
  else if name = "#f" then .ok (.bool false)
  else if name = "req" then .ok (.str "__req__")
  else if name = "now" then
    match env.vars "now" with
    | some v => .ok v
    | none => .ok (.symbol name)
  else
    match env.vars name with
    | some v => .ok v
    | none => .ok (.symbol name)

/-- The two-argument operators of `eval_op` (`=`, the four comparisons,
`member`/`in`, `subset?`, `before`, `per-day-count`, `vrf_ok?`): they all
evaluate `args[0]` then `args[1]` and combine the two values. -/
def isBinaryOp (op : String) : Bool :=
  op = "=" ∨ op = "<=" ∨ op = "<" ∨ op = ">=" ∨ op = ">" ∨ op = "member"
    ∨ op = "in" ∨ op = "subset?" ∨ op = "before" ∨ op = "per-day-count"
    ∨ op = "vrf_ok?"

/-- The (pure) combining step of each two-argument operator, from the
corresponding arm of `eval_op`: IEEE comparisons after `as_f64` coercion,
`node_eq` for `=` and the membership operators (non-lists give `false`),
lexicographic comparison of renderings for `before`, and the two host
callbacks. -/
def binCombine (op : String) (env : Env) (va vb : Node) : Node :=
  if op = "=" then .bool (nodeEq va vb)
  else if op = "<=" then .bool (F64.le (asF64 va) (asF64 vb))
  else if op = "<" then .bool (F64.lt (asF64 va) (asF64 vb))
  else if op = ">=" then .bool (F64.le (asF64 vb) (asF64 va))
  else if op = ">" then .bool (F64.lt (asF64 vb) (asF64 va))
  else if op = "member" ∨ op = "in" then
    match vb with
    | .list items => .bool (items.any fun item => nodeEq item va)
    | _ => .bool false
  else if op = "subset?" then
    match va, vb with
    | .list aItems, .list bItems =>
      .bool (aItems.all fun item => bItems.any fun cand => nodeEq item cand)
    | _, _ => .bool false
  else if op = "before" then .bool (decide (nodeToString va < nodeToString vb))
  else if op = "per-day-count" then
    .number (.finite (env.perDayCount (nodeToString va) (nodeToString vb)))
  else .bool (env.vrfOk (nodeToString va) (asF64 vb))

/-- The (pure) tail of `eval_op`'s `get` arm: the evaluated key must be a
`Str` (else `Nil`); a literal first argument `req` looks the key up in
`env.req` with `Nil` fallback; every other shape ends in `Nil` (the
`vars`-lookup code path in the source also always returns `Nil`). -/
def getCombine (env : Env) (a key : Node) : Node :=
  match key with
  | .str keyStr =>
    (match a with
     | .symbol s =>
       if s = "req" then (env.req keyStr).getD .nil else .nil
     | _ => .nil)
  | _ => .nil

/-- The (pure) result step of `tuple` / `merkle_ok?` after evaluating all
arguments. -/
def seqCombine (op : String) (env : Env) (vs : List Node) : Node :=
  if op = "tuple" then .list vs else .bool (env.merkleOk vs)

mutual
/-- `evaluator.rs` `eval`: gas is decremented once on entering every node
and checked first; then the depth counter is incremented and checked
against 64; then `eval_inner` dispatches (`evalList` holds the non-atom
part of `eval_inner` together with `eval_op`).  Returns the outcome with
the remaining gas (the mutable `st.gas`; `st.depth` is restored on exit and
is therefore passed functionally). -/
def eval : Node → Env → Int → Nat → EvalResult × Int
  | node, env, gas, depth =>
    if gas - 1 < 0 then (.err "gas budget exceeded", gas - 1)
    else if depth + 1 > 64 then (.err "max nesting depth exceeded", gas - 1)
    else
      match node with
      | .list items => evalList items env (gas - 1) (depth + 1)
      | .symbol s => (resolveSymbol s env, gas - 1)
      | .bool b => (.ok (.bool b), gas - 1)
      | .number n => (.ok (.number n), gas - 1)
      | .str s => (.ok (.str s), gas - 1)
      | .nil => (.ok .nil, gas - 1)

/-- `eval_inner` on a list plus the operator dispatch of `eval_op`: an empty
list is `Nil`; a non-`Symbol` head is the operator-shape error; a symbol
head selects the operator.  Operators index `args[0]`/`args[1]` without
arity checks exactly as the Rust does; the per-arity behaviour (including
the `panic` at each Rust indexing point) lives in `evalNot`, `evalBinArgs`
and `evalGet`. -/
def evalList : List Node → Env → Int → Nat → EvalResult × Int
  | [], _, g, _ => (.ok .nil, g)
  | .symbol op :: args, env, g, d =>
    if op = "and" then evalAnd args env g d
    else if op = "or" then evalOr args env g d
    else if op = "not" then evalNot args env g d
    else if isBinaryOp op then evalBinArgs op args env g d
    else if op = "get" then evalGet args env g d
    else if op = "tuple" ∨ op = "merkle_ok?" then
      match evalSeq args env g d with
      | (.vals vs, g2) => (.ok (seqCombine op env vs), g2)
      | (.err e, g2) => (.err e, g2)
      | (.panic, g2) => (.panic, g2)
    else if op = "dpop_ok?" then (.ok (.bool env.dpopOk), g)
    else if op = "thresh_ok?" then (.ok (.bool env.threshOk), g)
    else (.err ("Unknown op: " ++ op), g)
  | .bool _ :: _, _, g, _ => (.err "operator must be a symbol", g)
  | .number _ :: _, _, g, _ => (.err "operator must be a symbol", g)
  | .str _ :: _, _, g, _ => (.err "operator must be a symbol", g)
  | .list _ :: _, _, g, _ => (.err "operator must be a symbol", g)
  | .nil :: _, _, g, _ => (.err "operator must be a symbol", g)

/-- The `not` arm: evaluate `args[0]` (panic when absent). -/
def evalNot : List Node → Env → Int → Nat → EvalResult × Int
  | [], _, g, _ => (.panic, g)
  | a :: _, env, g, d =>
    match eval a env g d with
    | (.ok v, g2) => (.ok (.bool !(isTruthy v)), g2)
    | other => other

/-- Argument evaluation shared by all two-argument operators: evaluate
`args[0]`, then `args[1]`, then `binCombine`; `panic` at the Rust indexing
points when an argument is missing (after `args[0]`'s evaluation when only
`args[1]` is missing, exactly as the Rust `?` propagates first). -/
def evalBinArgs : String → List Node → Env → Int → Nat → EvalResult × Int
  | _, [], _, g, _ => (.panic, g)
  | _, [a], env, g, d =>
    match eval a env g d with
    | (.ok _, g2) => (.panic, g2)
    | other => other
  | op, a :: b :: _, env, g, d =>
    match eval a env g d with
    | (.ok va, g2) =>
      match eval b env g2 d with
      | (.ok vb, g3) => (.ok (binCombine op env va vb), g3)
      | other => other
    | other => other

/-- The `get` arm: Rust evaluates `args[1]` (the key) first — with fewer
than two arguments that indexing panics before anything runs; the first
argument is pattern-matched, not evaluated. -/
def evalGet : List Node → Env → Int → Nat → EvalResult × Int
  | a :: b :: _, env, g, d =>
    match eval b env g d with
    | (.ok key, g2) => (.ok (getCombine env a key), g2)
    | other => other
  | _, _, g, _ => (.panic, g)

/-- The `and` loop of `eval_op`: short-circuit on the first non-truthy
argument. -/
def evalAnd : List Node → Env → Int → Nat → EvalResult × Int
  | [], _, g, _ => (.ok (.bool true), g)
  | a :: rest, env, g, d =>
    match eval a env g d with
    | (.ok v, g2) =>
      if isTruthy v then evalAnd rest env g2 d else (.ok (.bool false), g2)
    | other => other

/-- The `or` loop of `eval_op`: short-circuit on the first truthy argument. -/
def evalOr : List Node → Env → Int → Nat → EvalResult × Int
  | [], _, g, _ => (.ok (.bool false), g)
  | a :: rest, env, g, d =>
    match eval a env g d with
    | (.ok v, g2) =>
      if isTruthy v then (.ok (.bool true), g2) else evalOr rest env g2 d
    | other => other

/-- Left-to-right evaluation of all arguments (for `tuple`/`merkle_ok?`). -/
def evalSeq : List Node → Env → Int → Nat → ArgsResult × Int
  | [], _, g, _ => (.vals [], g)
  | a :: rest, env, g, d =>
    match eval a env g d with
    | (.ok v, g2) =>
      match evalSeq rest env g2 d with
      | (.vals vs, g3) => (.vals (v :: vs), g3)
      | other => other
    | (.err e, g2) => (.err e, g2)
    | (.panic, g2) => (.panic, g2)
end

/-- `evaluator.rs` `eval_policy`: gas starts at `env.max_gas`, depth at 0. -/
def evalPolicy (ast : Node) (env : Env) : EvalResult × Int :=
  eval ast env env.maxGas 0

/-- Gas-shift property of a node: adding `δ ≥ 0` to the budget leaves the
outcome unchanged and shifts the remaining gas by `δ`, provided the run did
not die of gas exhaustion.  (The spec's gas-accounting claims reduce to
this.) -/
def NodeShift (a : Node) : Prop :=
  ∀ (env : Env) (g : Int) (d : Nat) (δ : Int), 0 ≤ δ →
    (eval a env g d).1 ≠ .err "gas budget exceeded" →
    eval a env (g + δ) d = ((eval a env g d).1, (eval a env g d).2 + δ)

/-- Gas bounds of a node: a run that does not die of gas exhaustion leaves
a nonnegative remainder and consumes at least one unit. -/
def NodeGasBounds (a : Node) : Prop :=
  ∀ (env : Env) (g : Int) (d : Nat),
    (eval a env g d).1 ≠ .err "gas budget exceeded" →
    0 ≤ (eval a env g d).2 ∧ (eval a env g d).2 ≤ g - 1

/-! ## Parser (`parser.rs`) -/

/-- The tokenizer's whitespace set: exactly the four characters matched by
the `match ch` arms of `tokenize` in `parser.rs` (space, LF, tab, CR). -/
def isWsChar (c : Char) : Bool := c = ' ' ∨ c = '\n' ∨ c = '\t' ∨ c = '\r'

/-- Rust `char::is_whitespace`: the Unicode `White_Space` property, the set
used by `str::trim` and `str::split_whitespace` (in `flush_buf` and in
`parse`'s initial `trim`).  A strict superset of `isWsChar`: it adds
U+000B, U+000C, U+0085, U+00A0 and the non-ASCII Unicode space
characters. -/
def isUniWs (c : Char) : Bool :=
  (9 ≤ c.toNat ∧ c.toNat ≤ 13) ∨ c.toNat = 32 ∨ c.toNat = 0x85 ∨ c.toNat = 0xA0
    ∨ c.toNat = 0x1680 ∨ (0x2000 ≤ c.toNat ∧ c.toNat ≤ 0x200A)
    ∨ c.toNat = 0x2028 ∨ c.toNat = 0x2029 ∨ c.toNat = 0x202F
    ∨ c.toNat = 0x205F ∨ c.toNat = 0x3000

/-- `str::trim`, on chars (Unicode whitespace). -/
def trimChars (cs : List Char) : List Char :=
  ((cs.dropWhile isUniWs).reverse.dropWhile isUniWs).reverse

/-- `flush_buf` (`parser.rs` lines 107–115): trim the buffer and push each
whitespace-separated word, splitting on Unicode whitespace (the split only
matters for buffers fed by an unterminated string literal or containing a
Unicode whitespace character outside the tokenizer's four-character set;
any other buffer is a single word). -/
def splitWs : List Char → List (List Char)
  | [] => []
  | c :: cs =>
    if isUniWs c then splitWs cs
    else
      match splitWs cs with
      | [] => [[c]]
      | w :: ws =>
        match cs with
        | [] => [[c]]
        | c' :: _ => if isUniWs c' then [c] :: w :: ws else (c :: w) :: ws

/-- `tokenize` (`parser.rs` lines 69–105) as a state machine over the
remaining input, the pending buffer and the `in_str` flag.  Inside a string
the next `"` unconditionally closes the token (no escape handling); outside,
quotes/parens/whitespace flush the buffer.  At end of input the buffer is
flushed through `flush_buf` regardless of `in_str`. -/
def tokenizeCore : List Char → List Char → Bool → List (List Char)
  | [], buf, _ => splitWs buf
  | c :: cs, buf, true =>
    if c = '"' then (buf ++ ['"']) :: tokenizeCore cs [] false
    else tokenizeCore cs (buf ++ [c]) true
  | c :: cs, buf, false =>
    if c = '"' then splitWs buf ++ tokenizeCore cs ['"'] true
    else if c = '(' ∨ c = ')' then splitWs buf ++ [c] :: tokenizeCore cs [] false
    else if isWsChar c then splitWs buf ++ tokenizeCore cs [] false
    else tokenizeCore cs (buf ++ [c]) false

def tokenize (cs : List Char) : List (List Char) := tokenizeCore cs [] false

/-- Numeric value of a decimal digit character. -/
def digitVal (c : Char) : Nat := c.toNat - 48

/-- Value of a digit string, most significant first. -/
def digitsVal (ds : List Char) : Nat := ds.foldl (fun a c => 10 * a + digitVal c) 0

/-- ASCII-case-insensitive comparison against a keyword (for `inf`,
`infinity`, `nan`). -/
def lowerIs (cs : List Char) (target : List Char) : Bool :=
  cs.map Char.toLower == target

/-- Exact rational value of a parsed decimal
`intPart . fracPart × 10^exp` with optional negation. -/
def mkF64 (neg : Bool) (ip fp : List Char) (e : Int) : F64 :=
  let m : ℚ := (digitsVal ip : ℚ) + (digitsVal fp : ℚ) / (10 : ℚ) ^ fp.length
  let v := m * (10 : ℚ) ^ e
  .finite (if neg then -v else v)

/-- Exponent suffix of Rust's `f64` grammar: empty, or `e|E`, optional sign,
one or more digits and nothing else. -/
def parseF64Exp (neg : Bool) (ip fp : List Char) : List Char → Option F64
  | [] => some (mkF64 neg ip fp 0)
  | e :: r =>
    if e = 'e' ∨ e = 'E' then
      let (eneg, r2) : Bool × List Char :=
        match r with
        | c :: rr => if c = '-' then (true, rr) else if c = '+' then (false, rr) else (false, r)
        | [] => (false, r)
      let ed := r2.takeWhile Char.isDigit
      let rest := r2.dropWhile Char.isDigit
      if ed.isEmpty ∨ !rest.isEmpty then none
      else some (mkF64 neg ip fp (if eneg then -(digitsVal ed : Int) else (digitsVal ed : Int)))
    else none

/-- Significand of Rust's `f64` grammar: `Digit+ ('.' Digit*)? | '.' Digit+`,
followed by the optional exponent. -/
def parseF64Dec (neg : Bool) (cs : List Char) : Option F64 :=
  let ip := cs.takeWhile Char.isDigit
  let rest1 := cs.dropWhile Char.isDigit
  match rest1 with
  | c :: r2 =>
    if c = '.' then
      let fp := r2.takeWhile Char.isDigit
      let rest2 := r2.dropWhile Char.isDigit
      if ip.isEmpty ∧ fp.isEmpty then none else parseF64Exp neg ip fp rest2
    else if ip.isEmpty then none else parseF64Exp neg ip [] rest1
  | [] => if ip.isEmpty then none else parseF64Exp neg ip [] rest1

/-- Rust `tok.parse::<f64>()` (the `FromStr` grammar: optional sign, then
case-insensitive `inf`/`infinity`/`nan` or a decimal significand with
optional exponent).  Values are exact rationals — IEEE rounding and
overflow-to-infinity of huge literals are not modelled; every literal
exercised by a theorem here is exactly representable. -/
def parseF64 (cs : List Char) : Option F64 :=
  let (neg, rest) : Bool × List Char :=
    match cs with
    | c :: r => if c = '-' then (true, r) else if c = '+' then (false, r) else (false, cs)
    | [] => (false, cs)
  if lowerIs rest ['i', 'n', 'f'] then some (.inf neg)
  else if lowerIs rest ['i', 'n', 'f', 'i', 'n', 'i', 't', 'y'] then some (.inf neg)
  else if lowerIs rest ['n', 'a', 'n'] then some .nan
  else parseF64Dec neg rest

/-- `str::replace("\\\"", "\"")` on the inner content of a string literal:
scan left to right, turning each backslash-quote pair into a quote. -/
def replaceEscQuote : List Char → List Char
  | [] => []
  | [c] => [c]
  | c :: c2 :: rest2 =>
    if c = '\\' ∧ c2 = '"' then '"' :: replaceEscQuote rest2
    else c :: replaceEscQuote (c2 :: rest2)

/-- `parse_atom` (`parser.rs` lines 49–67): `#t`/`#f`, then the float
attempt, then the quoted-string shape, else a symbol. -/
def parseAtom (tok : List Char) : Node :=
  if tok = ['#', 't'] then .bool true
  else if tok = ['#', 'f'] then .bool false
  else
    match parseF64 tok with
    | some n => .number n
    | none =>
      if tok.head? = some '"' ∧ tok.getLast? = some '"' ∧ 2 ≤ tok.length then
        .str (String.mk (replaceEscQuote (tok.drop 1 |>.dropLast)))
      else .symbol (String.mk tok)

mutual
/-- `parse_expr` (`parser.rs` lines 22–47), in token-consuming style: returns
the parsed node and the unconsumed tokens.  The fuel argument only bounds the
recursion; `parse` supplies `2·|tokens| + 1`, which is proved sufficient
below (`parseExprF_no_fuelErr`), so the sentinel `FUEL` error is unreachable
from `parse`. -/
def parseExprF : Nat → List (List Char) → Except String (Node × List (List Char))
  | 0, _ => .error "FUEL"
  | _ + 1, [] => .error "unexpected EOF"
  | fuel + 1, tok :: rest =>
    if tok = ['('] then
      match parseListF fuel rest with
      | .ok (items, rest') => .ok (.list items, rest')
      | .error e => .error e
    else if tok = [')'] then .error "unexpected )"
    else .ok (parseAtom tok, rest)

/-- The item loop inside `parse_expr`'s `(`-branch: collect expressions until
the matching `)`. -/
def parseListF : Nat → List (List Char) → Except String (List Node × List (List Char))
  | 0, _ => .error "FUEL"
  | _ + 1, [] => .error "unterminated ("
  | fuel + 1, tok :: rest =>
    if tok = [')'] then .ok ([], rest)
    else
      match parseExprF fuel (tok :: rest) with
      | .ok (item, rest') =>
        match parseListF fuel rest' with
        | .ok (items, rest'') => .ok (item :: items, rest'')
        | .error e => .error e
      | .error e => .error e
end

/-- `parse` (`parser.rs` lines 6–20): size cap (64 KiB of bytes), trim,
tokenize, exactly one expression, no trailing tokens. -/
def parse (src : String) : Except String Node :=
  if src.utf8ByteSize > 65536 then
    .error "policy exceeds maximum size of 65536 bytes"
  else
    let tokens := tokenize (trimChars src.data)
    if tokens.isEmpty then .error "unexpected EOF"
    else
      match parseExprF (2 * tokens.length + 1) tokens with
      | .ok (node, []) => .ok node
      | .ok (_, _ :: _) => .error "extra tokens"
      | .error e => .error e

/-! ## Token envelope (`token.rs`) and hash chain (`crypto.rs`)

Ed25519 and SHA-256 come from external crates (`ed25519_dalek`, `sha2`);
they are abstracted as function parameters.  Byte strings that only flow
into those abstract functions are carried as `String`s (the signing payload
is UTF-8 text) or `List Nat` (digests / decoded hex bytes). -/

/-- `str::trim` on a string (see `trimChars`). -/
def trimString (s : String) : String := String.mk (trimChars s.data)

/-- `token.rs` `signing_payload` (lines 55–70): the five covered fields
joined by NUL.  `parts.join("\0")` is modelled by `joinNul`. -/
def joinNul : List String → String
  | [] => ""
  | [x] => x
  | x :: y :: xs => x ++ "\x00" ++ joinNul (y :: xs)

def signingPayload (policy : String) (merkleRoot hashChainCommitment : Option String)
    (sealed : Bool) (expires : Option String) : String :=
  joinNul [trimString policy,
           merkleRoot.getD "",
           hashChainCommitment.getD "",
           if sealed then "1" else "0",
           expires.getD ""]

/-- `token.rs` `struct Token` (serde serialization is out of scope). -/
structure Token where
  version : String
  policy : String
  merkleRoot : Option String
  hashChainCommitment : Option String
  sealed : Bool
  expires : Option String
  publicKey : String
  signature : String
  popKey : Option String

/-- `token.rs` `struct VerifyTokenResult`. -/
structure VerifyTokenResult where
  allow : Bool
  sealed : Bool
  error : Option String
deriving DecidableEq

/-- `token.rs` `verify_token_with_pop` (lines 143–226), parameterized by the
external primitives: `ed msg sigHex pubHex` is `crypto.rs::verify_ed25519`
and `sha` is SHA-256 on the payload's bytes (the digest is opaque here — it
only flows back into `ed`).  Envelope signature first, then the PoP branch,
then parse and evaluate under a fresh default-like `Env` carrying the given
`req`/`vars`. -/
def verifyTokenWithPop
    (ed : String → String → String → Bool) (sha : String → String)
    (token : Token) (req vars : String → Option Node)
    (presentationSignature : Option String) : VerifyTokenResult :=
  let payload := signingPayload token.policy token.merkleRoot
    token.hashChainCommitment token.sealed token.expires
  if !(ed payload token.signature token.publicKey) then
    { allow := false, sealed := token.sealed, error := some "invalid signature" }
  else
    let popCheck : Option VerifyTokenResult :=
      match token.popKey with
      | none => none
      | some popKey =>
        match presentationSignature with
        | none => some { allow := false, sealed := token.sealed,
                         error := some "PoP binding requires presentation signature" }
        | some presSig =>
          if !(ed (sha payload) presSig popKey) then
            some { allow := false, sealed := token.sealed,
                   error := some "invalid presentation signature" }
          else none
    match popCheck with
    | some r => r
    | none =>
      match parse token.policy with
      | .error e =>
        { allow := false, sealed := token.sealed, error := some ("parse error: " ++ e) }
      | .ok ast =>
        let env : Env :=
          { req := req, vars := vars, perDayCount := fun _ _ => 0,
            dpopOk := false, merkleOk := fun _ => false, vrfOk := fun _ _ => false,
            threshOk := false, maxGas := 10000, sealed := false, strict := false }
        match evalPolicy ast env with
        | (.ok result, _) =>
          { allow := isTruthy result, sealed := token.sealed, error := none }
        | (.err e, _) => { allow := false, sealed := token.sealed, error := some e }
        | (.panic, _) => { allow := false, sealed := token.sealed, error := some "PANIC" }

/-- Outcome of `crypto.rs` `verify_hash_chain`: a boolean, or the Rust
panic/underflow of `chain_length - index` on `usize` when
`index > chain_length` (debug builds abort; release builds wrap around to
about 2^64 hash iterations). -/
inductive HashChainResult where
  | ok (b : Bool)
  | panic
deriving DecidableEq

/-- Hex decoding (`hex::decode`): even-length hex string to bytes. -/
def hexVal (c : Char) : Option Nat :=
  if '0' ≤ c ∧ c ≤ '9' then some (c.toNat - 48)
  else if 'a' ≤ c ∧ c ≤ 'f' then some (c.toNat - 87)
  else if 'A' ≤ c ∧ c ≤ 'F' then some (c.toNat - 55)
  else none

def hexDecode : List Char → Option (List Nat)
  | [] => some []
  | [_] => none
  | hi :: lo :: rest =>
    match hexVal hi, hexVal lo, hexDecode rest with
    | some h, some l, some bs => some ((16 * h + l) :: bs)
    | _, _, _ => none

/-- Hex encoding (`hex::encode`), lowercase. -/
def hexDigit (n : Nat) : Char := if n < 10 then digitChar n else
  (match n with | 10 => 'a' | 11 => 'b' | 12 => 'c' | 13 => 'd' | 14 => 'e' | _ => 'f')

def hexEncode (bs : List Nat) : List Char :=
  bs.flatMap fun b => [hexDigit (b / 16), hexDigit (b % 16)]

/-- `crypto.rs` `verify_hash_chain` (lines 116–130), with SHA-256 abstract:
decode the preimage (failure → `false`), then `let steps = chain_length -
index;` — on `usize` this underflows when `index > chain_length`, modelled
as `panic` — then iterate the hash and compare hex encodings. -/
def verifyHashChain (sha : List Nat → List Nat)
    (commitment preimageHex : String) (index chainLength : Nat) : HashChainResult :=
  match hexDecode preimageHex.data with
  | none => .ok false
  | some current =>
    if index ≤ chainLength then
      .ok (String.mk (hexEncode (Nat.rec current (fun _ acc => sha acc)
            (chainLength - index))) == commitment)
    else .panic

/-! ## Auxiliary definitions for the claims -/

/-- A character the tokenizer simply accumulates into the current atom
buffer and `flush_buf` never trims or splits on: not Unicode whitespace
(which subsumes the tokenizer's four-character set), not a quote, not a
parenthesis. -/
def PlainChar (c : Char) : Prop :=
  isUniWs c = false ∧ c ≠ '"' ∧ c ≠ '(' ∧ c ≠ ')'

instance (c : Char) : Decidable (PlainChar c) := by
  unfold PlainChar; infer_instance

/-- The ten decimal digit characters. -/
def decimalDigits : List Char := ['0', '1', '2', '3', '4', '5', '6', '7', '8', '9']

/-- Is a node the `Number NaN`?  (The one value on which `node_eq` is
irreflexive.) -/
def isNaNNode : Node → Bool
  | .number .nan => true
  | .bool _ => false
  | .number (.inf _) => false
  | .number (.finite _) => false
  | .str _ => false
  | .symbol _ => false
  | .list _ => false
  | .nil => false

mutual
/-- The token sequence that `tokenize` recovers from a displayed node (for
the round-trip claim): atoms are single tokens, lists contribute their
parens. -/
def nodeTokens : Node → List (List Char)
  | .bool b => [displayChars (.bool b)]
  | .number x => [displayChars (.number x)]
  | .str s => [displayChars (.str s)]
  | .symbol s => [displayChars (.symbol s)]
  | .nil => [displayChars .nil]
  | .list items => ['('] :: nodeTokensList items ++ [[')']]

def nodeTokensList : List Node → List (List Char)
  | [] => []
  | x :: xs => nodeTokens x ++ nodeTokensList xs
end

/-- A symbol string that re-lexes as the same single atom: nonempty, free of
Unicode whitespace (the `flush_buf` trim/split set) and of parens/quotes,
not a boolean literal, and not accepted by the float grammar. -/
def goodSymbolStr (s : String) : Prop :=
  s.data ≠ [] ∧ (∀ c ∈ s.data, isUniWs c = false ∧ c ≠ '(' ∧ c ≠ ')' ∧ c ≠ '"')
    ∧ s ≠ "#t" ∧ s ≠ "#f" ∧ parseF64 s.data = none

/-- The display-round-trippable fragment of the AST (for the corrected
round-trip claim): booleans; integer-valued numbers in the exactly
representable range; strings without a quote character; symbols that re-lex
as themselves; lists of such.  `Nil` and NaN/infinite or non-integer numbers
are excluded (the counterexample shows `Nil` re-parses as a symbol). -/
inductive GoodNode : Node → Prop where
  | bool (b : Bool) : GoodNode (.bool b)
  | num (m : Int) : |m| ≤ 2 ^ 53 → GoodNode (.number (.finite (m : ℚ)))
  | str (s : String) : '"' ∉ s.data → GoodNode (.str s)
  | symbol (s : String) : goodSymbolStr s → GoodNode (.symbol s)
  | list (items : List Node) : (∀ x ∈ items, GoodNode x) → GoodNode (.list items)

/-- What may follow a displayed atom so the tokenizer flushes it as its own
token: end of input, a space separator, or a closing paren (the only
continuations `Display` generates). -/
def TokBoundary (rest : List Char) : Prop :=
  rest = [] ∨ (∃ r, rest = ' ' :: r) ∨ (∃ r, rest = ')' :: r)

/-! ## Claim theorems -/

/-- **C1** (code bug shown at its failing input): the AST of `(not)` is a
valid parse (`parse "(not)"` succeeds) with 2 nodes, well under the default
gas budget of 10000, yet `eval_policy` hits the unchecked `args[0]` index in
`eval_op` and panics instead of returning a `Value` or an error.  The same
theorem records the panics for `(=)`, `(< 1)`, `(member 1)` and `(get req)`. -/
theorem spl_c1_arity_panic :
    parse "(not)" = .ok (.list [.symbol "not"])
    ∧ (nodeCount (.list [.symbol "not"]) : Int) ≤ Env.default.maxGas
    ∧ evalPolicy (.list [.symbol "not"]) Env.default = (.panic, 9999)
    ∧ evalPolicy (.list [.symbol "="]) Env.default = (.panic, 9999)
    ∧ evalPolicy (.list [.symbol "<", .number (.finite 1)]) Env.default = (.panic, 9998)
    ∧ evalPolicy (.list [.symbol "member", .number (.finite 1)]) Env.default
        = (.panic, 9998)
    ∧ evalPolicy (.list [.symbol "get", .symbol "req"]) Env.default = (.panic, 9999) := by
  refine ⟨rfl, by norm_num [nodeCount, nodeCountList, Env.default], rfl, rfl, ?_, ?_, rfl⟩
  · show eval _ _ _ _ = _
    rfl
  · rfl

/-- **C2** (confirmed): `signing_payload` is byte-exactly the five covered
fields — trimmed policy, `merkle_root` (or empty), `hash_chain_commitment`
(or empty), `"1"`/`"0"` for `sealed`, `expires` (or empty) — joined by
single NUL bytes, in that order.  (String equality here is byte equality:
every character of the payload is ASCII and NUL is the single byte 0.) -/
theorem spl_c2_signing_payload (policy : String) (mr hcc : Option String)
    (sealed : Bool) (expires : Option String) :
    signingPayload policy mr hcc sealed expires =
      trimString policy ++ "\x00" ++ mr.getD "" ++ "\x00" ++ hcc.getD ""
        ++ "\x00" ++ (if sealed then "1" else "0") ++ "\x00" ++ expires.getD "" := by
  simp [signingPayload, joinNul, String.append_assoc]

/-- **C3** (code bug shown at its failing input): in the source `"a\"b"` the
tokenizer ends the string token at the backslash-preceded quote (it has no
escape handling; `parse_atom`'s `\"`-replacement is unreachable), so instead
of the single `Str` value `a"b` the parse fails with "extra tokens". -/
theorem spl_c3_escaped_quote :
    tokenize "\"a\\\"b\"".data = [['"', 'a', '\\', '"'], ['b'], ['"']]
    ∧ parse "\"a\\\"b\"" = .error "extra tokens" := ⟨rfl, rfl⟩

/-- **C4** (counterexample): the AST of `(and)` has 2 nodes, and with
`max_gas = 1 < 2` evaluation does **not** fail with `GasExceeded` — it
returns `Bool(true)` — because the head symbol of an operator form is never
entered and so never costs gas. -/
theorem spl_c4_counterexample :
    parse "(and)" = .ok (.list [.symbol "and"])
    ∧ nodeCount (.list [.symbol "and"]) = 2
    ∧ evalPolicy (.list [.symbol "and"]) { Env.default with maxGas := 1 }
        = (.ok (.bool true), 0) := ⟨rfl, rfl, rfl⟩

/-- **C5** (counterexample): the symbol `req`, unbound in `env.vars`,
does **not** evaluate to itself: `resolve_symbol` special-cases it to the
wrapper string `__req__`. -/
theorem spl_c5_counterexample :
    Env.default.vars "req" = none
    ∧ evalPolicy (.symbol "req") Env.default = (.ok (.str "__req__"), 9999)
    ∧ (Node.str "__req__" = Node.symbol "req" → False) :=
  ⟨rfl, rfl, fun h => Node.noConfusion h⟩

/-- **C6** (code bug shown at its failing input): with `index = 1 >
0 = chain_length`, `verify_hash_chain` does not return `false` — the
`usize` subtraction `chain_length - index` underflows (debug builds panic;
release builds wrap to ~2^64 hash iterations).  Universally in the abstract
hash and any commitment, with the empty (validly hex-decoding) preimage. -/
theorem spl_c6_hashchain_underflow (sha : List Nat → List Nat) (commitment : String) :
    verifyHashChain sha commitment "" 1 0 = .panic := rfl

/-- **C8** (counterexample): `Nil` displays as `nil`, which re-parses as the
*symbol* `nil`, not `Nil` — the round-trip fails on a variant the claim
explicitly includes. -/
theorem spl_c8_counterexample :
    displayStr Node.nil = "nil"
    ∧ parse (displayStr Node.nil) = .ok (.symbol "nil")
    ∧ (Node.symbol "nil" = Node.nil → False) :=
  ⟨rfl, rfl, fun h => Node.noConfusion h⟩

/-- **C9** (counterexample): `(tuple NaN)` evaluates to the list `[NaN]`,
yet `(subset? (tuple NaN) (tuple NaN))` evaluates to `Bool(false)`:
`node_eq` on two `Number`s is IEEE `==`, and `NaN == NaN` is false, so
`subset?` is not reflexive on lists containing NaN. -/
theorem spl_c9_counterexample :
    evalPolicy (.list [.symbol "tuple", .number .nan]) Env.default
      = (.ok (.list [.number .nan]), 9998)
    ∧ evalPolicy (.list [.symbol "subset?",
        .list [.symbol "tuple", .number .nan],
        .list [.symbol "tuple", .number .nan]]) Env.default
      = (.ok (.bool false), 9995) := ⟨rfl, rfl⟩

/-- **C10** (counterexample): the unterminated string literal `"a c`
(opened, never closed, containing a space) does **not** parse to a symbol:
the end-of-input flush splits the buffer on whitespace into two tokens and
parse fails with "extra tokens". -/
theorem spl_c10_counterexample : parse "\"a c" = .error "extra tokens" := rfl

/-- **C5** (amended): every symbol name other than `#t`, `#f` **and `req`**
that is unbound in `env.vars` evaluates, in value position, to itself.
(`req` is special in value position too: it resolves to the wrapper string
`__req__`, as the counterexample shows; `now` follows the same
lookup-or-self rule as every other name.) -/
theorem spl_c5_amended (name : String) (env : Env)
    (h1 : name ≠ "#t") (h2 : name ≠ "#f") (h3 : name ≠ "req")
    (hv : env.vars name = none) (hg : 1 ≤ env.maxGas) :
    evalPolicy (.symbol name) env = (.ok (.symbol name), env.maxGas - 1) := by
  have hgas : ¬ (env.maxGas - 1 < 0) := by omega
  unfold evalPolicy
  rw [eval]
  simp only [hgas, if_false]
  norm_num
  unfold resolveSymbol
  by_cases hnow : name = "now"
  · subst hnow; simp [h1, h2, h3, hv]
  · simp [h1, h2, h3, hnow, hv]

theorem spl_c5_amended_witness :
    evalPolicy (.symbol "foo") Env.default = (.ok (.symbol "foo"), 9999) :=
  spl_c5_amended "foo" Env.default (by decide) (by decide) (by decide) rfl
    (by norm_num [Env.default])

/-- **C7** (confirmed): if a token carries a `pop_key` and its envelope
signature verifies, then (a) verification without a presentation signature
yields `allow = false` with exactly the error `PoP binding requires
presentation signature`, and (b) verification with a presentation signature
that fails Ed25519 over `SHA-256(payload)` under `pop_key` yields
`allow = false` with the distinct error `invalid presentation signature`.
In both cases the result record is the early PoP return — the policy is
never parsed or evaluated (the conclusion holds whatever `token.policy`
contains, even text that does not parse). -/
theorem spl_c7_pop_binding
    (ed : String → String → String → Bool) (sha : String → String)
    (token : Token) (req vars : String → Option Node) (k presSig : String)
    (hpop : token.popKey = some k)
    (hsig : ed (signingPayload token.policy token.merkleRoot
        token.hashChainCommitment token.sealed token.expires)
        token.signature token.publicKey = true) :
    verifyTokenWithPop ed sha token req vars none
      = { allow := false, sealed := token.sealed,
          error := some "PoP binding requires presentation signature" }
    ∧ (ed (sha (signingPayload token.policy token.merkleRoot
          token.hashChainCommitment token.sealed token.expires)) presSig k = false →
       verifyTokenWithPop ed sha token req vars (some presSig)
         = { allow := false, sealed := token.sealed,
             error := some "invalid presentation signature" }) := by
  constructor
  · unfold verifyTokenWithPop
    simp [hsig, hpop]
  · intro hpres
    unfold verifyTokenWithPop
    simp [hsig, hpop, hpres]

theorem spl_c7_pop_binding_witness :
    (verifyTokenWithPop (fun _ s _ => s == "goodsig") (fun p => p)
        ⟨"0.1.0", "#t", none, none, false, none, "pub", "goodsig", some "pk"⟩
        (fun _ => none) (fun _ => none) none
      = { allow := false, sealed := false,
          error := some "PoP binding requires presentation signature" })
    ∧ (verifyTokenWithPop (fun _ s _ => s == "goodsig") (fun p => p)
        ⟨"0.1.0", "#t", none, none, false, none, "pub", "goodsig", some "pk"⟩
        (fun _ => none) (fun _ => none) (some "badsig")
      = { allow := false, sealed := false,
          error := some "invalid presentation signature" }) := by
  have h := spl_c7_pop_binding (fun _ s _ => s == "goodsig") (fun p => p)
    ⟨"0.1.0", "#t", none, none, false, none, "pub", "goodsig", some "pk"⟩
    (fun _ => none) (fun _ => none) "pk" "badsig" rfl rfl
  exact ⟨h.1, h.2 rfl⟩

/-! ## Gas accounting lemmas

The evaluator's result depends on the gas budget only through the
exhaustion check: enlarging the budget by `δ ≥ 0` shifts the remaining gas
by `δ` and changes nothing else, unless the smaller run already died of gas
exhaustion.  Proved for each loop of the evaluator under the corresponding
property of the list elements, then for all nodes by induction on size. -/

theorem shift_evalNot (args : List Node) (h : ∀ a ∈ args, NodeShift a)
    (env : Env) (g : Int) (d : Nat) (δ : Int) (hδ : 0 ≤ δ)
    (hne : (evalNot args env g d).1 ≠ .err "gas budget exceeded") :
    evalNot args env (g + δ) d = ((evalNot args env g d).1, (evalNot args env g d).2 + δ) := by
  cases args with
  | nil => simp [evalNot]
  | cons a rest =>
    have ha := h a (List.mem_cons_self a rest)
    rcases he : eval a env g d with ⟨r, g2⟩
    have hane : r ≠ .err "gas budget exceeded" → eval a env (g + δ) d = (r, g2 + δ) := by
      intro hr
      have := ha env g d δ hδ (by rw [he]; exact hr)
      rwa [he] at this
    cases r with
    | ok v =>
      have hs := hane (by intro hc; exact EvalResult.noConfusion hc)
      simp [evalNot, he, hs]
    | err e =>
      have hr : e ≠ "gas budget exceeded" := by
        intro hc; subst hc; exact hne (by simp [evalNot, he])
      have hs := hane (by intro hc; exact hr (EvalResult.err.inj hc))
      simp [evalNot, he, hs]
    | panic =>
      have hs := hane (by intro hc; exact EvalResult.noConfusion hc)
      simp [evalNot, he, hs]

theorem shift_evalGet (args : List Node) (h : ∀ a ∈ args, NodeShift a)
    (env : Env) (g : Int) (d : Nat) (δ : Int) (hδ : 0 ≤ δ)
    (hne : (evalGet args env g d).1 ≠ .err "gas budget exceeded") :
    evalGet args env (g + δ) d = ((evalGet args env g d).1, (evalGet args env g d).2 + δ) := by
  match args with
  | [] => simp [evalGet]
  | [a] => simp [evalGet]
  | a :: b :: rest =>
    have hb := h b (List.mem_cons_of_mem _ (List.mem_cons_self b rest))
    rcases he : eval b env g d with ⟨r, g2⟩
    have hbne : r ≠ .err "gas budget exceeded" → eval b env (g + δ) d = (r, g2 + δ) := by
      intro hr
      have := hb env g d δ hδ (by rw [he]; exact hr)
      rwa [he] at this
    cases r with
    | ok v =>
      have hs := hbne (by intro hc; exact EvalResult.noConfusion hc)
      simp [evalGet, he, hs]
    | err e =>
      have hr : e ≠ "gas budget exceeded" := by
        intro hc; subst hc; exact hne (by simp [evalGet, he])
      have hs := hbne (by intro hc; exact hr (EvalResult.err.inj hc))
      simp [evalGet, he, hs]
    | panic =>
      have hs := hbne (by intro hc; exact EvalResult.noConfusion hc)
      simp [evalGet, he, hs]

theorem shift_evalBinArgs (op : String) (args : List Node) (h : ∀ a ∈ args, NodeShift a)
    (env : Env) (g : Int) (d : Nat) (δ : Int) (hδ : 0 ≤ δ)
    (hne : (evalBinArgs op args env g d).1 ≠ .err "gas budget exceeded") :
    evalBinArgs op args env (g + δ) d
      = ((evalBinArgs op args env g d).1, (evalBinArgs op args env g d).2 + δ) := by
  match args with
  | [] => simp [evalBinArgs]
  | [a] =>
    have ha := h a (List.mem_cons_self a [])
    rcases he : eval a env g d with ⟨r, g2⟩
    have hane : r ≠ .err "gas budget exceeded" → eval a env (g + δ) d = (r, g2 + δ) := by
      intro hr
      have := ha env g d δ hδ (by rw [he]; exact hr)
      rwa [he] at this
    cases r with
    | ok v =>
      have hs := hane (by intro hc; exact EvalResult.noConfusion hc)
      simp [evalBinArgs, he, hs]
    | err e =>
      have hr : e ≠ "gas budget exceeded" := by
        intro hc; subst hc; exact hne (by simp [evalBinArgs, he])
      have hs := hane (by intro hc; exact hr (EvalResult.err.inj hc))
      simp [evalBinArgs, he, hs]
    | panic =>
      have hs := hane (by intro hc; exact EvalResult.noConfusion hc)
      simp [evalBinArgs, he, hs]
  | a :: b :: rest =>
    have ha := h a (List.mem_cons_self a (b :: rest))
    have hb := h b (List.mem_cons_of_mem _ (List.mem_cons_self b rest))
    rcases he : eval a env g d with ⟨r, g2⟩
    have hane : r ≠ .err "gas budget exceeded" → eval a env (g + δ) d = (r, g2 + δ) := by
      intro hr
      have := ha env g d δ hδ (by rw [he]; exact hr)
      rwa [he] at this
    cases r with
    | ok va =>
      have hs := hane (by intro hc; exact EvalResult.noConfusion hc)
      rcases he2 : eval b env g2 d with ⟨r2, g3⟩
      have hbne : r2 ≠ .err "gas budget exceeded" → eval b env (g2 + δ) d = (r2, g3 + δ) := by
        intro hr
        have := hb env g2 d δ hδ (by rw [he2]; exact hr)
        rwa [he2] at this
      cases r2 with
      | ok vb =>
        have hs2 := hbne (by intro hc; exact EvalResult.noConfusion hc)
        simp [evalBinArgs, he, hs, he2, hs2]
      | err e =>
        have hr : e ≠ "gas budget exceeded" := by
          intro hc; subst hc; exact hne (by simp [evalBinArgs, he, he2])
        have hs2 := hbne (by intro hc; exact hr (EvalResult.err.inj hc))
        simp [evalBinArgs, he, hs, he2, hs2]
      | panic =>
        have hs2 := hbne (by intro hc; exact EvalResult.noConfusion hc)
        simp [evalBinArgs, he, hs, he2, hs2]
    | err e =>
      have hr : e ≠ "gas budget exceeded" := by
        intro hc; subst hc; exact hne (by simp [evalBinArgs, he])
      have hs := hane (by intro hc; exact hr (EvalResult.err.inj hc))
      simp [evalBinArgs, he, hs]
    | panic =>
      have hs := hane (by intro hc; exact EvalResult.noConfusion hc)
      simp [evalBinArgs, he, hs]

theorem shift_evalAnd (args : List Node) (h : ∀ a ∈ args, NodeShift a)
    (env : Env) (g : Int) (d : Nat) (δ : Int) (hδ : 0 ≤ δ)
    (hne : (evalAnd args env g d).1 ≠ .err "gas budget exceeded") :
    evalAnd args env (g + δ) d = ((evalAnd args env g d).1, (evalAnd args env g d).2 + δ) := by
  induction args generalizing g with
  | nil => simp [evalAnd]
  | cons a rest ih =>
    have ha := h a (List.mem_cons_self a rest)
    have hrest : ∀ x ∈ rest, NodeShift x := fun x hx => h x (List.mem_cons_of_mem _ hx)
    rcases he : eval a env g d with ⟨r, g2⟩
    have hane : r ≠ .err "gas budget exceeded" → eval a env (g + δ) d = (r, g2 + δ) := by
      intro hr
      have := ha env g d δ hδ (by rw [he]; exact hr)
      rwa [he] at this
    cases r with
    | ok v =>
      have hs := hane (by intro hc; exact EvalResult.noConfusion hc)
      by_cases ht : isTruthy v
      · have hnerest : (evalAnd rest env g2 d).1 ≠ .err "gas budget exceeded" := by
          intro hc; exact hne (by simp [evalAnd, he, ht, hc])
        have := ih hrest g2 hnerest
        simp [evalAnd, he, hs, ht, this]
      · simp [evalAnd, he, hs, ht]
    | err e =>
      have hr : e ≠ "gas budget exceeded" := by
        intro hc; subst hc; exact hne (by simp [evalAnd, he])
      have hs := hane (by intro hc; exact hr (EvalResult.err.inj hc))
      simp [evalAnd, he, hs]
    | panic =>
      have hs := hane (by intro hc; exact EvalResult.noConfusion hc)
      simp [evalAnd, he, hs]

theorem shift_evalOr (args : List Node) (h : ∀ a ∈ args, NodeShift a)
    (env : Env) (g : Int) (d : Nat) (δ : Int) (hδ : 0 ≤ δ)
    (hne : (evalOr args env g d).1 ≠ .err "gas budget exceeded") :
    evalOr args env (g + δ) d = ((evalOr args env g d).1, (evalOr args env g d).2 + δ) := by
  induction args generalizing g with
  | nil => simp [evalOr]
  | cons a rest ih =>
    have ha := h a (List.mem_cons_self a rest)
    have hrest : ∀ x ∈ rest, NodeShift x := fun x hx => h x (List.mem_cons_of_mem _ hx)
    rcases he : eval a env g d with ⟨r, g2⟩
    have hane : r ≠ .err "gas budget exceeded" → eval a env (g + δ) d = (r, g2 + δ) := by
      intro hr
      have := ha env g d δ hδ (by rw [he]; exact hr)
      rwa [he] at this
    cases r with
    | ok v =>
      have hs := hane (by intro hc; exact EvalResult.noConfusion hc)
      by_cases ht : isTruthy v
      · simp [evalOr, he, hs, ht]
      · have hnerest : (evalOr rest env g2 d).1 ≠ .err "gas budget exceeded" := by
          intro hc; exact hne (by simp [evalOr, he, ht, hc])
        have := ih hrest g2 hnerest
        simp [evalOr, he, hs, ht, this]
    | err e =>
      have hr : e ≠ "gas budget exceeded" := by
        intro hc; subst hc; exact hne (by simp [evalOr, he])
      have hs := hane (by intro hc; exact hr (EvalResult.err.inj hc))
      simp [evalOr, he, hs]
    | panic =>
      have hs := hane (by intro hc; exact EvalResult.noConfusion hc)
      simp [evalOr, he, hs]

theorem shift_evalSeq (args : List Node) (h : ∀ a ∈ args, NodeShift a)
    (env : Env) (g : Int) (d : Nat) (δ : Int) (hδ : 0 ≤ δ)
    (hne : (evalSeq args env g d).1 ≠ .err "gas budget exceeded") :
    evalSeq args env (g + δ) d = ((evalSeq args env g d).1, (evalSeq args env g d).2 + δ) := by
  induction args generalizing g with
  | nil => simp [evalSeq]
  | cons a rest ih =>
    have ha := h a (List.mem_cons_self a rest)
    have hrest : ∀ x ∈ rest, NodeShift x := fun x hx => h x (List.mem_cons_of_mem _ hx)
    rcases he : eval a env g d with ⟨r, g2⟩
    have hane : r ≠ .err "gas budget exceeded" → eval a env (g + δ) d = (r, g2 + δ) := by
      intro hr
      have := ha env g d δ hδ (by rw [he]; exact hr)
      rwa [he] at this
    cases r with
    | ok v =>
      have hs := hane (by intro hc; exact EvalResult.noConfusion hc)
      rcases hr2 : evalSeq rest env g2 d with ⟨r2, g3⟩
      have hnerest : r2 ≠ .err "gas budget exceeded" := by
        intro hc; subst hc
        exact hne (by simp [evalSeq, he, hr2])
      have := ih hrest g2 (by rw [hr2]; exact hnerest)
      rw [hr2] at this
      cases r2 with
      | vals vs => simp [evalSeq, he, hs, hr2, this]
      | err e => simp [evalSeq, he, hs, hr2, this]
      | panic => simp [evalSeq, he, hs, hr2, this]
    | err e =>
      have hr : e ≠ "gas budget exceeded" := by
        intro hc; subst hc; exact hne (by simp [evalSeq, he])
      have hs := hane (by intro hc; exact hr (EvalResult.err.inj hc))
      simp [evalSeq, he, hs]
    | panic =>
      have hs := hane (by intro hc; exact EvalResult.noConfusion hc)
      simp [evalSeq, he, hs]

theorem shift_evalList (items : List Node) (h : ∀ a ∈ items, NodeShift a)
    (env : Env) (g : Int) (d : Nat) (δ : Int) (hδ : 0 ≤ δ)
    (hne : (evalList items env g d).1 ≠ .err "gas budget exceeded") :
    evalList items env (g + δ) d
      = ((evalList items env g d).1, (evalList items env g d).2 + δ) := by
  cases items with
  | nil => simp [evalList]
  | cons hd rest =>
    cases hd with
    | symbol op =>
      have hrest : ∀ x ∈ rest, NodeShift x := fun x hx => h x (List.mem_cons_of_mem _ hx)
      simp only [evalList] at hne ⊢
      split_ifs at hne ⊢ with h1 h2 h3 h4 h5 h6 h7 h8
      · exact shift_evalAnd rest hrest env g d δ hδ hne
      · exact shift_evalOr rest hrest env g d δ hδ hne
      · exact shift_evalNot rest hrest env g d δ hδ hne
      · exact shift_evalBinArgs op rest hrest env g d δ hδ hne
      · exact shift_evalGet rest hrest env g d δ hδ hne
      · rcases hr : evalSeq rest env g d with ⟨r, g2⟩
        have hrne : r ≠ .err "gas budget exceeded" := by
          intro hc; subst hc; exact hne (by simp [hr])
        have := shift_evalSeq rest hrest env g d δ hδ (by rw [hr]; exact hrne)
        rw [hr] at this
        cases r with
        | vals vs => simp [hr, this]
        | err e => simp [hr, this]
        | panic => simp [hr, this]
      · rfl
      · rfl
      · rfl
    | bool b => simp [evalList]
    | number n => simp [evalList]
    | str s => simp [evalList]
    | list l => simp [evalList]
    | nil => simp [evalList]

theorem nodeCount_pos (n : Node) : 0 < nodeCount n := by
  cases n <;> simp [nodeCount]

theorem nodeCount_mem_le {a : Node} {xs : List Node} (h : a ∈ xs) :
    nodeCount a ≤ nodeCountList xs := by
  induction xs with
  | nil => cases h
  | cons x rest ih =>
    rcases List.mem_cons.mp h with h1 | h2
    · subst h1; simp [nodeCountList]
    · have := ih h2
      simp [nodeCountList]
      omega

/-- One-step unfolding of `eval` (gas check, depth check, dispatch). -/
theorem eval_unfold (node : Node) (env : Env) (gas : Int) (depth : Nat) :
    eval node env gas depth =
      if gas - 1 < 0 then (.err "gas budget exceeded", gas - 1)
      else if depth + 1 > 64 then (.err "max nesting depth exceeded", gas - 1)
      else
        match node with
        | .list items => evalList items env (gas - 1) (depth + 1)
        | .symbol s => (resolveSymbol s env, gas - 1)
        | .bool b => (.ok (.bool b), gas - 1)
        | .number n => (.ok (.number n), gas - 1)
        | .str s => (.ok (.str s), gas - 1)
        | .nil => (.ok .nil, gas - 1) := by
  cases node <;> rfl

/-- Every node has the gas-shift property. -/
theorem nodeShift_all (node : Node) : NodeShift node := by
  suffices hs : ∀ N node_1, nodeCount node_1 ≤ N → NodeShift node_1 from
    hs (nodeCount node) node le_rfl
  intro N
  induction N with
  | zero => intro node1 hc; have := nodeCount_pos node1; omega
  | succ N IH =>
    intro node1 hc env g d δ hδ hne
    rw [eval_unfold] at hne
    rw [eval_unfold node1 env (g + δ) d, eval_unfold node1 env g d]
    by_cases hg : g - 1 < 0
    · rw [if_pos hg] at hne; exact absurd rfl hne
    · have hg2 : ¬ (g + δ - 1 < 0) := by omega
      rw [if_neg hg] at hne
      rw [if_neg hg2, if_neg hg]
      have hshift : g + δ - 1 = (g - 1) + δ := by ring
      by_cases hd64 : d + 1 > 64
      · rw [if_pos hd64] at hne
        rw [if_pos hd64, if_pos hd64, hshift]
      · rw [if_neg hd64] at hne
        rw [if_neg hd64, if_neg hd64, hshift]
        cases node1 with
        | list items =>
          have hmem : ∀ a ∈ items, NodeShift a := by
            intro a ha
            have h1 := nodeCount_mem_le ha
            have h2 : nodeCount (.list items) = 1 + nodeCountList items := rfl
            exact IH a (by omega)
          exact shift_evalList items hmem env (g - 1) (d + 1) δ hδ hne
        | symbol s => rfl
        | bool b => rfl
        | number n => rfl
        | str s => rfl
        | nil => rfl

theorem bounds_evalNot (args : List Node) (h : ∀ a ∈ args, NodeGasBounds a)
    (env : Env) (g : Int) (d : Nat) (hg : 0 ≤ g)
    (hne : (evalNot args env g d).1 ≠ .err "gas budget exceeded") :
    0 ≤ (evalNot args env g d).2 ∧ (evalNot args env g d).2 ≤ g := by
  cases args with
  | nil => simp [evalNot]; omega
  | cons a rest =>
    have ha := h a (List.mem_cons_self a rest)
    rcases he : eval a env g d with ⟨r, g2⟩
    have hb : r ≠ .err "gas budget exceeded" → 0 ≤ g2 ∧ g2 ≤ g - 1 := by
      intro hr
      have := ha env g d (by rw [he]; exact hr)
      rwa [he] at this
    cases r with
    | ok v =>
      have := hb (by intro hc; exact EvalResult.noConfusion hc)
      simp [evalNot, he]; omega
    | err e =>
      have hr : e ≠ "gas budget exceeded" := by
        intro hc; subst hc; exact hne (by simp [evalNot, he])
      have := hb (by intro hc; exact hr (EvalResult.err.inj hc))
      simp [evalNot, he]; omega
    | panic =>
      have := hb (by intro hc; exact EvalResult.noConfusion hc)
      simp [evalNot, he]; omega

theorem bounds_evalGet (args : List Node) (h : ∀ a ∈ args, NodeGasBounds a)
    (env : Env) (g : Int) (d : Nat) (hg : 0 ≤ g)
    (hne : (evalGet args env g d).1 ≠ .err "gas budget exceeded") :
    0 ≤ (evalGet args env g d).2 ∧ (evalGet args env g d).2 ≤ g := by
  match args with
  | [] => simp [evalGet]; omega
  | [a] => simp [evalGet]; omega
  | a :: b :: rest =>
    have hbmem := h b (List.mem_cons_of_mem _ (List.mem_cons_self b rest))
    rcases he : eval b env g d with ⟨r, g2⟩
    have hb : r ≠ .err "gas budget exceeded" → 0 ≤ g2 ∧ g2 ≤ g - 1 := by
      intro hr
      have := hbmem env g d (by rw [he]; exact hr)
      rwa [he] at this
    cases r with
    | ok v =>
      have := hb (by intro hc; exact EvalResult.noConfusion hc)
      simp [evalGet, he]; omega
    | err e =>
      have hr : e ≠ "gas budget exceeded" := by
        intro hc; subst hc; exact hne (by simp [evalGet, he])
      have := hb (by intro hc; exact hr (EvalResult.err.inj hc))
      simp [evalGet, he]; omega
    | panic =>
      have := hb (by intro hc; exact EvalResult.noConfusion hc)
      simp [evalGet, he]; omega

theorem bounds_evalBinArgs (op : String) (args : List Node) (h : ∀ a ∈ args, NodeGasBounds a)
    (env : Env) (g : Int) (d : Nat) (hg : 0 ≤ g)
    (hne : (evalBinArgs op args env g d).1 ≠ .err "gas budget exceeded") :
    0 ≤ (evalBinArgs op args env g d).2 ∧ (evalBinArgs op args env g d).2 ≤ g := by
  match args with
  | [] => simp [evalBinArgs]; omega
  | [a] =>
    have ha := h a (List.mem_cons_self a [])
    rcases he : eval a env g d with ⟨r, g2⟩
    have hb : r ≠ .err "gas budget exceeded" → 0 ≤ g2 ∧ g2 ≤ g - 1 := by
      intro hr
      have := ha env g d (by rw [he]; exact hr)
      rwa [he] at this
    cases r with
    | ok v =>
      have := hb (by intro hc; exact EvalResult.noConfusion hc)
      simp [evalBinArgs, he]; omega
    | err e =>
      have hr : e ≠ "gas budget exceeded" := by
        intro hc; subst hc; exact hne (by simp [evalBinArgs, he])
      have := hb (by intro hc; exact hr (EvalResult.err.inj hc))
      simp [evalBinArgs, he]; omega
    | panic =>
      have := hb (by intro hc; exact EvalResult.noConfusion hc)
      simp [evalBinArgs, he]; omega
  | a :: b :: rest =>
    have ha := h a (List.mem_cons_self a (b :: rest))
    have hbm := h b (List.mem_cons_of_mem _ (List.mem_cons_self b rest))
    rcases he : eval a env g d with ⟨r, g2⟩
    have hb : r ≠ .err "gas budget exceeded" → 0 ≤ g2 ∧ g2 ≤ g - 1 := by
      intro hr
      have := ha env g d (by rw [he]; exact hr)
      rwa [he] at this
    cases r with
    | ok va =>
      have h1 := hb (by intro hc; exact EvalResult.noConfusion hc)
      rcases he2 : eval b env g2 d with ⟨r2, g3⟩
      have hb2 : r2 ≠ .err "gas budget exceeded" → 0 ≤ g3 ∧ g3 ≤ g2 - 1 := by
        intro hr
        have := hbm env g2 d (by rw [he2]; exact hr)
        rwa [he2] at this
      cases r2 with
      | ok vb =>
        have := hb2 (by intro hc; exact EvalResult.noConfusion hc)
        simp [evalBinArgs, he, he2]; omega
      | err e =>
        have hr : e ≠ "gas budget exceeded" := by
          intro hc; subst hc; exact hne (by simp [evalBinArgs, he, he2])
        have := hb2 (by intro hc; exact hr (EvalResult.err.inj hc))
        simp [evalBinArgs, he, he2]; omega
      | panic =>
        have := hb2 (by intro hc; exact EvalResult.noConfusion hc)
        simp [evalBinArgs, he, he2]; omega
    | err e =>
      have hr : e ≠ "gas budget exceeded" := by
        intro hc; subst hc; exact hne (by simp [evalBinArgs, he])
      have := hb (by intro hc; exact hr (EvalResult.err.inj hc))
      simp [evalBinArgs, he]; omega
    | panic =>
      have := hb (by intro hc; exact EvalResult.noConfusion hc)
      simp [evalBinArgs, he]; omega

theorem bounds_evalAnd (args : List Node) (h : ∀ a ∈ args, NodeGasBounds a)
    (env : Env) (g : Int) (d : Nat) (hg : 0 ≤ g)
    (hne : (evalAnd args env g d).1 ≠ .err "gas budget exceeded") :
    0 ≤ (evalAnd args env g d).2 ∧ (evalAnd args env g d).2 ≤ g := by
  induction args generalizing g with
  | nil => simp [evalAnd]; omega
  | cons a rest ih =>
    have ha := h a (List.mem_cons_self a rest)
    have hrest : ∀ x ∈ rest, NodeGasBounds x := fun x hx => h x (List.mem_cons_of_mem _ hx)
    rcases he : eval a env g d with ⟨r, g2⟩
    have hb : r ≠ .err "gas budget exceeded" → 0 ≤ g2 ∧ g2 ≤ g - 1 := by
      intro hr
      have := ha env g d (by rw [he]; exact hr)
      rwa [he] at this
    cases r with
    | ok v =>
      have h1 := hb (by intro hc; exact EvalResult.noConfusion hc)
      by_cases ht : isTruthy v
      · have hnerest : (evalAnd rest env g2 d).1 ≠ .err "gas budget exceeded" := by
          intro hc; exact hne (by simp [evalAnd, he, ht, hc])
        have := ih hrest g2 h1.1 hnerest
        simp [evalAnd, he, ht]; omega
      · simp [evalAnd, he, ht]; omega
    | err e =>
      have hr : e ≠ "gas budget exceeded" := by
        intro hc; subst hc; exact hne (by simp [evalAnd, he])
      have := hb (by intro hc; exact hr (EvalResult.err.inj hc))
      simp [evalAnd, he]; omega
    | panic =>
      have := hb (by intro hc; exact EvalResult.noConfusion hc)
      simp [evalAnd, he]; omega

theorem bounds_evalOr (args : List Node) (h : ∀ a ∈ args, NodeGasBounds a)
    (env : Env) (g : Int) (d : Nat) (hg : 0 ≤ g)
    (hne : (evalOr args env g d).1 ≠ .err "gas budget exceeded") :
    0 ≤ (evalOr args env g d).2 ∧ (evalOr args env g d).2 ≤ g := by
  induction args generalizing g with
  | nil => simp [evalOr]; omega
  | cons a rest ih =>
    have ha := h a (List.mem_cons_self a rest)
    have hrest : ∀ x ∈ rest, NodeGasBounds x := fun x hx => h x (List.mem_cons_of_mem _ hx)
    rcases he : eval a env g d with ⟨r, g2⟩
    have hb : r ≠ .err "gas budget exceeded" → 0 ≤ g2 ∧ g2 ≤ g - 1 := by
      intro hr
      have := ha env g d (by rw [he]; exact hr)
      rwa [he] at this
    cases r with
    | ok v =>
      have h1 := hb (by intro hc; exact EvalResult.noConfusion hc)
      by_cases ht : isTruthy v
      · simp [evalOr, he, ht]; omega
      · have hnerest : (evalOr rest env g2 d).1 ≠ .err "gas budget exceeded" := by
          intro hc; exact hne (by simp [evalOr, he, ht, hc])
        have := ih hrest g2 h1.1 hnerest
        simp [evalOr, he, ht]; omega
    | err e =>
      have hr : e ≠ "gas budget exceeded" := by
        intro hc; subst hc; exact hne (by simp [evalOr, he])
      have := hb (by intro hc; exact hr (EvalResult.err.inj hc))
      simp [evalOr, he]; omega
    | panic =>
      have := hb (by intro hc; exact EvalResult.noConfusion hc)
      simp [evalOr, he]; omega

theorem bounds_evalSeq (args : List Node) (h : ∀ a ∈ args, NodeGasBounds a)
    (env : Env) (g : Int) (d : Nat) (hg : 0 ≤ g)
    (hne : (evalSeq args env g d).1 ≠ .err "gas budget exceeded") :
    0 ≤ (evalSeq args env g d).2 ∧ (evalSeq args env g d).2 ≤ g := by
  induction args generalizing g with
  | nil => simp [evalSeq]; omega
  | cons a rest ih =>
    have ha := h a (List.mem_cons_self a rest)
    have hrest : ∀ x ∈ rest, NodeGasBounds x := fun x hx => h x (List.mem_cons_of_mem _ hx)
    rcases he : eval a env g d with ⟨r, g2⟩
    have hb : r ≠ .err "gas budget exceeded" → 0 ≤ g2 ∧ g2 ≤ g - 1 := by
      intro hr
      have := ha env g d (by rw [he]; exact hr)
      rwa [he] at this
    cases r with
    | ok v =>
      have h1 := hb (by intro hc; exact EvalResult.noConfusion hc)
      rcases hr2 : evalSeq rest env g2 d with ⟨r2, g3⟩
      have hnerest : r2 ≠ .err "gas budget exceeded" := by
        intro hc; subst hc
        exact hne (by simp [evalSeq, he, hr2])
      have := ih hrest g2 h1.1 (by rw [hr2]; exact hnerest)
      rw [hr2] at this
      cases r2 with
      | vals vs => simp [evalSeq, he, hr2]; omega
      | err e => simp [evalSeq, he, hr2]; omega
      | panic => simp [evalSeq, he, hr2]; omega
    | err e =>
      have hr : e ≠ "gas budget exceeded" := by
        intro hc; subst hc; exact hne (by simp [evalSeq, he])
      have := hb (by intro hc; exact hr (EvalResult.err.inj hc))
      simp [evalSeq, he]; omega
    | panic =>
      have := hb (by intro hc; exact EvalResult.noConfusion hc)
      simp [evalSeq, he]; omega

theorem bounds_evalList (items : List Node) (h : ∀ a ∈ items, NodeGasBounds a)
    (env : Env) (g : Int) (d : Nat) (hg : 0 ≤ g)
    (hne : (evalList items env g d).1 ≠ .err "gas budget exceeded") :
    0 ≤ (evalList items env g d).2 ∧ (evalList items env g d).2 ≤ g := by
  cases items with
  | nil => simp [evalList]; omega
  | cons hd rest =>
    cases hd with
    | symbol op =>
      have hrest : ∀ x ∈ rest, NodeGasBounds x := fun x hx => h x (List.mem_cons_of_mem _ hx)
      simp only [evalList] at hne ⊢
      split_ifs at hne ⊢ with h1 h2 h3 h4 h5 h6 h7 h8
      · exact bounds_evalAnd rest hrest env g d hg hne
      · exact bounds_evalOr rest hrest env g d hg hne
      · exact bounds_evalNot rest hrest env g d hg hne
      · exact bounds_evalBinArgs op rest hrest env g d hg hne
      · exact bounds_evalGet rest hrest env g d hg hne
      · rcases hr : evalSeq rest env g d with ⟨r, g2⟩
        have hrne : r ≠ .err "gas budget exceeded" := by
          intro hc; subst hc; exact hne (by simp [hr])
        have := bounds_evalSeq rest hrest env g d hg (by rw [hr]; exact hrne)
        rw [hr] at this
        cases r with
        | vals vs => simp [hr]; omega
        | err e => simp [hr]; omega
        | panic => simp [hr]; omega
      · constructor <;> simp <;> omega
      · constructor <;> simp <;> omega
      · constructor <;> simp <;> omega
    | bool b => simp [evalList]; omega
    | number n => simp [evalList]; omega
    | str s => simp [evalList]; omega
    | list l => simp [evalList]; omega
    | nil => simp [evalList]; omega

/-- Every node has the gas-bounds property: a run that does not exhaust gas
leaves `0 ≤ remaining ≤ g - 1`. -/
theorem nodeBounds_all (node : Node) : NodeGasBounds node := by
  suffices hs : ∀ N node_1, nodeCount node_1 ≤ N → NodeGasBounds node_1 from
    hs (nodeCount node) node le_rfl
  intro N
  induction N with
  | zero => intro node1 hc; have := nodeCount_pos node1; omega
  | succ N IH =>
    intro node1 hc env g d hne
    rw [eval_unfold] at hne
    rw [eval_unfold node1 env g d]
    by_cases hg : g - 1 < 0
    · rw [if_pos hg] at hne; exact absurd rfl hne
    · rw [if_neg hg] at hne
      rw [if_neg hg]
      by_cases hd64 : d + 1 > 64
      · rw [if_pos hd64] at hne
        rw [if_pos hd64]
        simp; omega
      · rw [if_neg hd64] at hne
        rw [if_neg hd64]
        cases node1 with
        | list items =>
          have hmem : ∀ a ∈ items, NodeGasBounds a := by
            intro a ha
            have h1 := nodeCount_mem_le ha
            have h2 : nodeCount (.list items) = 1 + nodeCountList items := rfl
            exact IH a (by omega)
          have := bounds_evalList items hmem env (g - 1) (d + 1) (by omega) hne
          exact ⟨this.1, this.2⟩
        | symbol s => simp; omega
        | bool b => simp; omega
        | number n => simp; omega
        | str s => simp; omega
        | nil => simp; omega

/-- **C4** (amended): the per-node gas charge is real, but the node count of
the claim overcounts: operator head symbols are never entered and
`and`/`or` skip short-circuited arguments, so the right threshold is the
gas actually consumed.  If evaluation under budget `env.max_gas` returns a
value with `gRem` gas left (so it consumed `env.max_gas - gRem`, one unit
per node actually entered), then evaluation of the same AST in the same
environment under any budget `0 ≤ b < env.max_gas - gRem` fails with
exactly the error `gas budget exceeded`. -/
theorem spl_c4_amended (ast : Node) (env : Env) (v : Node) (gRem b : Int)
    (h : evalPolicy ast env = (.ok v, gRem))
    (hb0 : 0 ≤ b) (hb : b < env.maxGas - gRem) :
    (eval ast env b 0).1 = .err "gas budget exceeded" := by
  have h' : eval ast env env.maxGas 0 = (.ok v, gRem) := h
  have hrem : 0 ≤ gRem ∧ gRem ≤ env.maxGas - 1 := by
    have hb2 := nodeBounds_all ast env env.maxGas 0
      (by rw [h']; intro hc; exact EvalResult.noConfusion hc)
    rwa [h'] at hb2
  by_contra hne
  have hδ : 0 ≤ env.maxGas - b := by omega
  have hshift := nodeShift_all ast env b 0 (env.maxGas - b) hδ hne
  have hbeq : b + (env.maxGas - b) = env.maxGas := by ring
  rw [hbeq, h'] at hshift
  have h2 : gRem = (eval ast env b 0).2 + (env.maxGas - b) := congrArg Prod.snd hshift
  have hbnd := nodeBounds_all ast env b 0 hne
  omega

theorem spl_c4_amended_witness :
    (eval (.list [.symbol "and", .bool true]) { Env.default with maxGas := 100 } 1 0).1
      = .err "gas budget exceeded" :=
  spl_c4_amended (.list [.symbol "and", .bool true]) { Env.default with maxGas := 100 }
    (.bool true) 98 1 rfl (by norm_num) (by norm_num [Env.default])

/-- `node_eq` is reflexive except exactly at `Number NaN`. -/
theorem nodeEq_refl (x : Node) (h : isNaNNode x = false) : nodeEq x x = true := by
  cases x with
  | number n =>
    cases n with
    | nan => exact absurd h (by simp [isNaNNode])
    | inf s => simp [nodeEq, F64.beq]
    | finite q => simp [nodeEq, F64.beq]
  | bool b => simp [nodeEq]
  | str s => simp [nodeEq]
  | symbol s => simp [nodeEq]
  | list l => simp [nodeEq]
  | nil => simp [nodeEq]

theorem subset_all_refl (items : List Node) (h : ∀ x ∈ items, isNaNNode x = false) :
    (items.all fun item => items.any fun cand => nodeEq item cand) = true := by
  rw [List.all_eq_true]
  intro item hitem
  rw [List.any_eq_true]
  exact ⟨item, hitem, nodeEq_refl item (h item hitem)⟩

/-- One-step unfolding of `eval` at a list node. -/
theorem eval_list_unfold (items : List Node) (env : Env) (gas : Int) (depth : Nat) :
    eval (.list items) env gas depth =
      if gas - 1 < 0 then (.err "gas budget exceeded", gas - 1)
      else if depth + 1 > 64 then (.err "max nesting depth exceeded", gas - 1)
      else evalList items env (gas - 1) (depth + 1) := rfl

/-- `eval_op` dispatch at the literal operator `subset?`. -/
theorem evalList_subset (args : List Node) (env : Env) (g : Int) (d : Nat) :
    evalList (.symbol "subset?" :: args) env g d = evalBinArgs "subset?" args env g d := rfl

/-- The `subset?` combine on two list values. -/
theorem binCombine_subset (env : Env) (xs ys : List Node) :
    binCombine "subset?" env (.list xs) (.list ys)
      = .bool (xs.all fun item => ys.any fun cand => nodeEq item cand) := rfl

/-- **C9** (amended): `subset?` is reflexive on NaN-free lists.  If an
expression `e` evaluates (twice in sequence, as the operator evaluates both
its arguments) to the same `List` value none of whose elements is the
`Number NaN`, then `(subset? e e)` evaluates to `Bool(true)`.  The
counterexample shows reflexivity genuinely fails once an element is NaN,
because `node_eq` on two `Number`s is IEEE equality. -/
theorem spl_c9_amended (env : Env) (e : Node) (items : List Node) (g g1 g2 : Int) (d : Nat)
    (h1 : eval e env (g - 1) (d + 1) = (.ok (.list items), g1))
    (h2 : eval e env g1 (d + 1) = (.ok (.list items), g2))
    (hnan : ∀ x ∈ items, isNaNNode x = false)
    (hd : d + 1 ≤ 64) :
    eval (.list [.symbol "subset?", e, e]) env g d = (.ok (.bool true), g2) := by
  have hg : ¬ (g - 1 < 0) := by
    intro hg
    rw [eval_unfold, if_pos (by omega : (g - 1) - 1 < 0)] at h1
    exact EvalResult.noConfusion (congrArg Prod.fst h1)
  rw [eval_list_unfold, if_neg hg, if_neg (by omega : ¬ (d + 1 > 64))]
  rw [show ([Node.symbol "subset?", e, e]) = (Node.symbol "subset?" :: [e, e]) from rfl]
  rw [evalList_subset]
  rw [evalBinArgs, h1]
  simp only []
  rw [h2]
  simp only []
  rw [binCombine_subset, subset_all_refl items hnan]

theorem spl_c9_amended_witness :
    eval (.list [.symbol "subset?",
        .list [.symbol "tuple", .number (.finite 1)],
        .list [.symbol "tuple", .number (.finite 1)]]) Env.default 10000 0
      = (.ok (.bool true), 9995) :=
  spl_c9_amended Env.default (.list [.symbol "tuple", .number (.finite 1)])
    [.number (.finite 1)] 10000 9997 9995 0 rfl rfl
    (by intro x hx; rw [List.mem_singleton] at hx; subst hx; rfl)
    (by norm_num)

/-! ## Tokenizer lemmas -/

theorem dropWhile_ws_eq_self (cs : List Char) (h : ∀ c ∈ cs, isUniWs c = false) :
    cs.dropWhile isUniWs = cs := by
  cases cs with
  | nil => rfl
  | cons c rest =>
    rw [List.dropWhile_cons]
    simp [h c (List.mem_cons_self c rest)]

theorem trimChars_eq_self (cs : List Char) (h : ∀ c ∈ cs, isUniWs c = false) :
    trimChars cs = cs := by
  unfold trimChars
  rw [dropWhile_ws_eq_self cs h]
  rw [dropWhile_ws_eq_self cs.reverse (by intro c hc; exact h c (List.mem_reverse.mp hc))]
  exact List.reverse_reverse cs

theorem splitWs_single (cs : List Char) (hne : cs ≠ [])
    (h : ∀ c ∈ cs, isUniWs c = false) : splitWs cs = [cs] := by
  induction cs with
  | nil => exact absurd rfl hne
  | cons c rest ih =>
    rw [splitWs]
    simp only [h c (List.mem_cons_self c rest), if_false]
    cases rest with
    | nil => rfl
    | cons c2 rest2 =>
      rw [ih (by intro hc; exact List.noConfusion hc)
        (fun x hx => h x (List.mem_cons_of_mem _ hx))]
      simp [h c2 (List.mem_cons_of_mem _ (List.mem_cons_self c2 rest2))]

theorem isUniWs_of_isWsChar (c : Char) (h : isWsChar c = true) : isUniWs c = true := by
  have hc : c = ' ' ∨ c = '\n' ∨ c = '\t' ∨ c = '\r' := by
    simpa [isWsChar] using h
  rcases hc with h | h | h | h <;> subst h <;> decide

theorem isWsChar_false_of_uniWs (c : Char) (h : isUniWs c = false) :
    isWsChar c = false := by
  cases hw : isWsChar c with
  | false => rfl
  | true => rw [isUniWs_of_isWsChar c hw] at h; exact Bool.noConfusion h

theorem tokenizeCore_in_str (rest : List Char) (buf : List Char)
    (h : '"' ∉ rest) : tokenizeCore rest buf true = splitWs (buf ++ rest) := by
  induction rest generalizing buf with
  | nil => simp [tokenizeCore]
  | cons c cs ih =>
    have hcq : ¬ (c = '"') := fun hc => h (hc ▸ List.mem_cons_self c cs)
    rw [tokenizeCore]
    simp only [hcq, if_false]
    rw [ih (buf ++ [c]) (fun hc => h (List.mem_cons_of_mem _ hc))]
    simp

theorem lowerIs_cons_ne (c : Char) (cs : List Char) (t : Char) (ts : List Char)
    (h : Char.toLower c ≠ t) : lowerIs (c :: cs) (t :: ts) = false := by
  unfold lowerIs
  rw [List.map_cons]
  simp [h]

theorem parseF64_quote (cs : List Char) : parseF64 ('"' :: cs) = none := by
  unfold parseF64
  simp only [eq_false (by decide : ¬ ('"' = '-')), eq_false (by decide : ¬ ('"' = '+')),
    if_false,
    lowerIs_cons_ne '"' cs 'i' _ (by decide),
    lowerIs_cons_ne '"' cs 'n' _ (by decide),
    Bool.false_eq_true]
  unfold parseF64Dec
  simp only [List.takeWhile_cons, List.dropWhile_cons,
    eq_false (by decide : ¬ (Char.isDigit '"' = true)),
    if_false, eq_false (by decide : ¬ ('"' = '.')), List.isEmpty_nil, if_true]

theorem parseAtom_unterminated (rest : List Char) (hq : '"' ∉ rest) :
    parseAtom ('"' :: rest) = .symbol (String.mk ('"' :: rest)) := by
  unfold parseAtom
  rw [if_neg (by intro h; exact absurd (List.cons.inj h).1 (by decide))]
  rw [if_neg (by intro h; exact absurd (List.cons.inj h).1 (by decide))]
  rw [parseF64_quote]
  rw [if_neg ?hcond]
  case hcond =>
    rintro ⟨hh, hl, hlen⟩
    cases rest with
    | nil => simp at hlen
    | cons r rs =>
      have : ('"' :: r :: rs).getLast? = (r :: rs).getLast? := by
        rw [List.getLast?_cons_cons]
      rw [this] at hl
      obtain ⟨hne, heq⟩ := List.mem_getLast?_eq_getLast (Option.mem_def.mpr hl)
      exact hq (heq ▸ List.getLast_mem hne)

/-- **C10** (amended): an unterminated string literal containing **no
Unicode whitespace** (the set `flush_buf`'s trim/split uses, a superset of
the tokenizer's four characters) does parse as a single `Symbol` whose text
starts with (indeed is) the opening quote and everything after it; no
unterminated-string error exists.  (When the unterminated literal contains
whitespace, the end-of-input flush splits it and parse fails with "extra
tokens" — the counterexample — still not an unterminated-string error.) -/
theorem spl_c10_amended (rest : List Char)
    (hq : '"' ∉ rest) (hws : ∀ c ∈ rest, isUniWs c = false)
    (hsz : (String.mk ('"' :: rest)).utf8ByteSize ≤ 65536) :
    parse (String.mk ('"' :: rest)) = .ok (.symbol (String.mk ('"' :: rest))) := by
  unfold parse
  rw [if_neg (by omega : ¬ ((String.mk ('"' :: rest)).utf8ByteSize > 65536))]
  have hdata : (String.mk ('"' :: rest)).data = '"' :: rest := rfl
  rw [hdata]
  have hall : ∀ c ∈ '"' :: rest, isUniWs c = false := by
    intro c hc
    rcases List.mem_cons.mp hc with h | h
    · subst h; decide
    · exact hws c h
  rw [trimChars_eq_self _ hall]
  unfold tokenize
  rw [tokenizeCore]
  rw [if_pos (rfl : ('"' : Char) = '"')]
  rw [tokenizeCore_in_str rest ['"'] hq]
  rw [show (['"'] ++ rest : List Char) = '"' :: rest from rfl]
  rw [splitWs_single ('"' :: rest) (by intro h; exact List.noConfusion h) hall]
  rw [show splitWs [] = [] from rfl]
  rw [List.nil_append]
  simp only [List.isEmpty_cons, Bool.false_eq_true, if_false, List.length_cons,
    List.length_nil]
  rw [show (2 * (0 + 1) + 1) = 2 + 1 from rfl]
  rw [parseExprF]
  rw [if_neg (by intro h; exact absurd (List.cons.inj h).1 (by decide))]
  rw [if_neg (by intro h; exact absurd (List.cons.inj h).1 (by decide))]
  rw [parseAtom_unterminated rest hq]

theorem spl_c10_amended_witness :
    parse "\"abc" = .ok (.symbol "\"abc") :=
  spl_c10_amended ['a', 'b', 'c'] (by decide) (by decide) (by decide)

/-! ## Decimal digits and number atoms -/

theorem digitChar_mem (n : Nat) (h : n < 10) : digitChar n ∈ decimalDigits := by
  interval_cases n <;> decide

theorem digitVal_digitChar (n : Nat) (h : n < 10) : digitVal (digitChar n) = n := by
  interval_cases n <;> decide

theorem digitsVal_append (ds : List Char) (c : Char) :
    digitsVal (ds ++ [c]) = 10 * digitsVal ds + digitVal c := by
  simp [digitsVal, List.foldl_append]

theorem natDigitsAux_spec (fuel : Nat) :
    ∀ n, n < fuel →
      digitsVal (natDigitsAux fuel n) = n
      ∧ natDigitsAux fuel n ≠ []
      ∧ ∀ c ∈ natDigitsAux fuel n, c ∈ decimalDigits := by
  induction fuel with
  | zero => intro n h; omega
  | succ f ih =>
    intro n h
    rw [natDigitsAux]
    by_cases hn : n < 10
    · rw [if_pos hn]
      refine ⟨?_, by simp, ?_⟩
      · simp [digitsVal, digitVal_digitChar n hn]
      · intro c hc
        rw [List.mem_singleton] at hc
        exact hc ▸ digitChar_mem n hn
    · rw [if_neg hn]
      have hdiv : n / 10 < f := by
        have h1 : n / 10 < n := Nat.div_lt_self (by omega) (by omega)
        omega
      obtain ⟨hval, hne, hmem⟩ := ih (n / 10) hdiv
      refine ⟨?_, by simp [hne], ?_⟩
      · rw [digitsVal_append, hval, digitVal_digitChar (n % 10) (Nat.mod_lt n (by omega))]
        omega
      · intro c hc
        rcases List.mem_append.mp hc with h1 | h1
        · exact hmem c h1
        · rw [List.mem_singleton] at h1
          exact h1 ▸ digitChar_mem (n % 10) (Nat.mod_lt n (by omega))

theorem natDigits_spec (n : Nat) :
    digitsVal (natDigits n) = n ∧ natDigits n ≠ []
      ∧ ∀ c ∈ natDigits n, c ∈ decimalDigits :=
  natDigitsAux_spec (n + 1) n (by omega)

theorem decimalDigits_facts (c : Char) (h : c ∈ decimalDigits) :
    c ≠ '-' ∧ c ≠ '+' ∧ Char.toLower c ≠ 'i' ∧ Char.toLower c ≠ 'n'
      ∧ c.isDigit = true ∧ c ≠ '.' ∧ PlainChar c ∧ c ≠ '#' ∧ c ≠ '"' := by
  fin_cases h <;> exact ⟨by decide, by decide, by decide, by decide, by decide,
    by decide, ⟨by decide, by decide, by decide, by decide⟩, by decide, by decide⟩

theorem takeWhile_all_eq_self (p : Char → Bool) (cs : List Char)
    (h : ∀ c ∈ cs, p c = true) : cs.takeWhile p = cs := by
  induction cs with
  | nil => rfl
  | cons c rest ih =>
    rw [List.takeWhile_cons, h c (List.mem_cons_self c rest)]
    rw [ih (fun x hx => h x (List.mem_cons_of_mem _ hx))]
    simp

theorem dropWhile_all_eq_nil (p : Char → Bool) (cs : List Char)
    (h : ∀ c ∈ cs, p c = true) : cs.dropWhile p = [] := by
  induction cs with
  | nil => rfl
  | cons c rest ih =>
    rw [List.dropWhile_cons, h c (List.mem_cons_self c rest)]
    exact ih (fun x hx => h x (List.mem_cons_of_mem _ hx))

/-- The float grammar accepts a nonempty all-digit token with its exact
value. -/
theorem parseF64_digits (ds : List Char) (hne : ds ≠ [])
    (h : ∀ c ∈ ds, c ∈ decimalDigits) :
    parseF64 ds = some (.finite (digitsVal ds : ℚ)) := by
  obtain ⟨c, cs, rfl⟩ := List.exists_cons_of_ne_nil hne
  have hc := decimalDigits_facts c (h c (List.mem_cons_self c cs))
  unfold parseF64
  simp only [eq_false hc.1, eq_false hc.2.1, if_false,
    lowerIs_cons_ne c cs 'i' _ hc.2.2.1,
    lowerIs_cons_ne c cs 'n' _ hc.2.2.2.1,
    Bool.false_eq_true]
  unfold parseF64Dec
  rw [takeWhile_all_eq_self Char.isDigit _ (fun x hx => (decimalDigits_facts x (h x hx)).2.2.2.2.1)]
  rw [dropWhile_all_eq_nil Char.isDigit _ (fun x hx => (decimalDigits_facts x (h x hx)).2.2.2.2.1)]
  simp only [List.isEmpty_cons, Bool.false_eq_true, if_false]
  unfold parseF64Exp
  unfold mkF64
  simp [digitsVal, zpow_zero]

theorem parseF64_neg_digits (ds : List Char) (hne : ds ≠ [])
    (h : ∀ c ∈ ds, c ∈ decimalDigits) :
    parseF64 ('-' :: ds) = some (.finite (-(digitsVal ds : ℚ))) := by
  obtain ⟨c, cs, rfl⟩ := List.exists_cons_of_ne_nil hne
  have hc := decimalDigits_facts c (h c (List.mem_cons_self c cs))
  unfold parseF64
  simp only [eq_self_iff_true, if_true,
    lowerIs_cons_ne c cs 'i' _ hc.2.2.1,
    lowerIs_cons_ne c cs 'n' _ hc.2.2.2.1,
    Bool.false_eq_true, if_false]
  unfold parseF64Dec
  rw [takeWhile_all_eq_self Char.isDigit _ (fun x hx => (decimalDigits_facts x (h x hx)).2.2.2.2.1)]
  rw [dropWhile_all_eq_nil Char.isDigit _ (fun x hx => (decimalDigits_facts x (h x hx)).2.2.2.2.1)]
  simp only [List.isEmpty_cons, Bool.false_eq_true, if_false]
  unfold parseF64Exp
  unfold mkF64
  simp [digitsVal, zpow_zero]

/-! ## `parse_atom` on displayed atoms -/

theorem parseAtom_bool (b : Bool) : parseAtom (displayChars (.bool b)) = .bool b := by
  cases b <;> rfl

theorem f64DisplayChars_finite (q : ℚ) :
    f64DisplayChars (.finite q) =
      if q.den = 1 then
        (if q.num < 0 then '-' :: natDigits q.num.natAbs else natDigits q.num.natAbs)
      else
        (if q.num < 0 then '-' :: natDigits q.num.natAbs else natDigits q.num.natAbs)
          ++ '/' :: natDigits q.den := rfl

theorem parseAtom_int (m : Int) :
    parseAtom (f64DisplayChars (.finite (m : ℚ))) = .number (.finite (m : ℚ)) := by
  have hden : ((m : ℚ)).den = 1 := Rat.den_intCast m
  have hnum : ((m : ℚ)).num = m := Rat.num_intCast m
  obtain ⟨hval, hne, hmem⟩ := natDigits_spec m.natAbs
  obtain ⟨c, cs, hcons⟩ := List.exists_cons_of_ne_nil hne
  have hc := decimalDigits_facts c (hmem c (by rw [hcons]; exact List.mem_cons_self c cs))
  rw [f64DisplayChars_finite, if_pos hden, hnum]
  by_cases hm : m < 0
  · rw [if_pos hm]
    unfold parseAtom
    rw [if_neg (by rw [hcons]; intro hd; exact absurd (List.cons.inj hd).1 (by decide))]
    rw [if_neg (by rw [hcons]; intro hd; exact absurd (List.cons.inj hd).1 (by decide))]
    rw [parseF64_neg_digits _ hne hmem, hval]
    have habs : ((m.natAbs : ℚ)) = -(m : ℚ) := by
      rw [Int.cast_natAbs]
      exact_mod_cast abs_of_neg hm
    rw [habs, neg_neg]
  · rw [if_neg hm]
    unfold parseAtom
    rw [if_neg (by rw [hcons]; intro hd; exact absurd (List.cons.inj hd).1 hc.2.2.2.2.2.2.2.1)]
    rw [if_neg (by rw [hcons]; intro hd; exact absurd (List.cons.inj hd).1 hc.2.2.2.2.2.2.2.1)]
    rw [parseF64_digits _ hne hmem, hval]
    have habs : ((m.natAbs : ℚ)) = (m : ℚ) := by
      rw [Int.cast_natAbs]
      exact_mod_cast abs_of_nonneg (not_lt.mp hm)
    rw [habs]

theorem replaceEscQuote_noquote (cs : List Char) (h : '"' ∉ cs) :
    replaceEscQuote cs = cs := by
  induction cs with
  | nil => rfl
  | cons c rest ih =>
    cases rest with
    | nil => rfl
    | cons c2 rest2 =>
      rw [replaceEscQuote]
      rw [if_neg (by
        rintro ⟨-, hc2⟩
        exact h (hc2 ▸ List.mem_cons_of_mem _ (List.mem_cons_self c2 rest2)))]
      rw [ih (fun hm => h (List.mem_cons_of_mem _ hm))]

theorem parseAtom_str (s : String) (h : '"' ∉ s.data) :
    parseAtom ('"' :: s.data ++ ['"']) = .str s := by
  unfold parseAtom
  rw [if_neg (by intro hd; exact absurd (List.cons.inj hd).1 (by decide))]
  rw [if_neg (by intro hd; exact absurd (List.cons.inj hd).1 (by decide))]
  rw [show ('"' :: s.data ++ ['"'] : List Char) = '"' :: (s.data ++ ['"']) from rfl]
  rw [parseF64_quote]
  rw [if_pos ?hcond]
  case hcond =>
    refine ⟨rfl, ?_, by simp⟩
    rw [show ('"' :: (s.data ++ ['"']) : List Char) = ('"' :: s.data) ++ ['"'] from rfl]
    rw [List.getLast?_concat]
  congr 1
  rw [show (('"' :: (s.data ++ ['"'])).drop 1 : List Char) = s.data ++ ['"'] from rfl]
  rw [List.dropLast_concat]
  rw [replaceEscQuote_noquote s.data h]

theorem parseAtom_symbol (s : String) (hg : goodSymbolStr s) :
    parseAtom s.data = .symbol s := by
  obtain ⟨hne, hchars, ht, hf, hpf⟩ := hg
  obtain ⟨c, cs, hcons⟩ := List.exists_cons_of_ne_nil hne
  unfold parseAtom
  rw [if_neg (fun hd => ht (show s = "#t" from congrArg String.mk hd))]
  rw [if_neg (fun hd => hf (show s = "#f" from congrArg String.mk hd))]
  rw [hpf]
  rw [if_neg ?hcond]
  case hcond =>
    rintro ⟨hh, -, -⟩
    rw [hcons] at hh
    have : c = '"' := by simpa using hh
    exact ((hchars c (hcons ▸ List.mem_cons_self c cs)).2.2.2) this

/-! ## Tokenizing a displayed node -/

theorem tokenizeCore_plain (cs : List Char) (h : ∀ c ∈ cs, PlainChar c)
    (buf rest : List Char) :
    tokenizeCore (cs ++ rest) buf false = tokenizeCore rest (buf ++ cs) false := by
  induction cs generalizing buf with
  | nil => simp
  | cons c cs' ih =>
    obtain ⟨hws, hq, hl, hr⟩ := h c (List.mem_cons_self c cs')
    rw [List.cons_append, tokenizeCore]
    rw [if_neg hq, if_neg (by rintro (h | h) <;> [exact hl h; exact hr h]),
      if_neg (by simp [isWsChar_false_of_uniWs c hws])]
    rw [ih (fun x hx => h x (List.mem_cons_of_mem _ hx)) (buf ++ [c])]
    simp

theorem tokenizeCore_atomEnd (buf : List Char) (hne : buf ≠ [])
    (hb : ∀ c ∈ buf, PlainChar c) (rest : List Char) (hrest : TokBoundary rest) :
    tokenizeCore rest buf false = buf :: tokenizeCore rest [] false := by
  have hsingle := splitWs_single buf hne (fun c hc => (hb c hc).1)
  rcases hrest with h | ⟨r, h⟩ | ⟨r, h⟩ <;> subst h
  · rw [tokenizeCore, tokenizeCore, hsingle]
    rfl
  · rw [tokenizeCore, if_neg (by decide), if_neg (by decide), if_pos (by decide)]
    rw [tokenizeCore, if_neg (by decide), if_neg (by decide), if_pos (by decide)]
    rw [hsingle]
    rfl
  · rw [tokenizeCore, if_neg (by decide), if_pos (by decide)]
    rw [tokenizeCore, if_neg (by decide), if_pos (by decide)]
    rw [hsingle]
    rfl

theorem tokenizeCore_display_atom (tok : List Char) (hne : tok ≠ [])
    (hp : ∀ c ∈ tok, PlainChar c) (rest : List Char) (hrest : TokBoundary rest) :
    tokenizeCore (tok ++ rest) [] false = tok :: tokenizeCore rest [] false := by
  rw [tokenizeCore_plain tok hp [] rest]
  rw [List.nil_append]
  exact tokenizeCore_atomEnd tok hne hp rest hrest

theorem tokenizeCore_in_str_closed (cs : List Char) (h : '"' ∉ cs) :
    ∀ (buf rest : List Char),
      tokenizeCore (cs ++ '"' :: rest) buf true
        = (buf ++ cs ++ ['"']) :: tokenizeCore rest [] false := by
  induction cs with
  | nil =>
    intro buf rest
    rw [List.nil_append, tokenizeCore, if_pos rfl]
    simp
  | cons c cs' ih =>
    intro buf rest
    have hcq : ¬ (c = '"') := fun hc => h (hc ▸ List.mem_cons_self c cs')
    rw [List.cons_append, tokenizeCore, if_neg hcq]
    rw [ih (fun hm => h (List.mem_cons_of_mem _ hm)) (buf ++ [c]) rest]
    simp

theorem tokenizeCore_display_str (s : String) (h : '"' ∉ s.data) (rest : List Char) :
    tokenizeCore (('"' :: s.data ++ ['"']) ++ rest) [] false
      = ('"' :: s.data ++ ['"']) :: tokenizeCore rest [] false := by
  rw [show (('"' :: s.data ++ ['"']) ++ rest : List Char)
      = '"' :: (s.data ++ '"' :: rest) from by simp]
  rw [tokenizeCore, if_pos rfl]
  rw [tokenizeCore_in_str_closed s.data h ['"'] rest]
  rw [show splitWs ([] : List Char) = [] from rfl]
  simp

theorem displayChars_int_plain (m : Int) :
    ∀ c ∈ f64DisplayChars (.finite (m : ℚ)), PlainChar c := by
  have hden : ((m : ℚ)).den = 1 := Rat.den_intCast m
  obtain ⟨-, -, hmem⟩ := natDigits_spec ((m : ℚ)).num.natAbs
  rw [f64DisplayChars_finite, if_pos hden]
  by_cases hm : ((m : ℚ)).num < 0
  · rw [if_pos hm]
    intro c hc
    rcases List.mem_cons.mp hc with h | h
    · exact h ▸ ⟨by decide, by decide, by decide, by decide⟩
    · exact (decimalDigits_facts c (hmem c h)).2.2.2.2.2.2.1
  · rw [if_neg hm]
    intro c hc
    exact (decimalDigits_facts c (hmem c hc)).2.2.2.2.2.2.1

theorem nodeTokens_list_eq (items : List Node) :
    nodeTokens (.list items) = ['('] :: nodeTokensList items ++ [[')']] := rfl

/-- Tokenizing the display of a round-trippable node, followed by a token
boundary, yields exactly its token list followed by the rest's tokens. -/
theorem tokenizeCore_display (n : Node) (hg : GoodNode n) :
    ∀ rest : List Char, TokBoundary rest →
      tokenizeCore (displayChars n ++ rest) [] false
        = nodeTokens n ++ tokenizeCore rest [] false := by
  induction hg with
  | bool b =>
    intro rest hrest
    cases b
    · exact tokenizeCore_display_atom _ (by decide) (by decide) rest hrest
    · exact tokenizeCore_display_atom _ (by decide) (by decide) rest hrest
  | num m hm =>
    intro rest hrest
    have hne : f64DisplayChars (.finite (m : ℚ)) ≠ [] := by
      have hden : ((m : ℚ)).den = 1 := Rat.den_intCast m
      obtain ⟨-, hne, -⟩ := natDigits_spec ((m : ℚ)).num.natAbs
      rw [f64DisplayChars_finite, if_pos hden]
      by_cases hlt : ((m : ℚ)).num < 0
      · rw [if_pos hlt]; exact List.cons_ne_nil _ _
      · rw [if_neg hlt]; exact hne
    exact tokenizeCore_display_atom _ hne (displayChars_int_plain m) rest hrest
  | str s hq =>
    intro rest _
    exact tokenizeCore_display_str s hq rest
  | symbol s hgs =>
    intro rest hrest
    obtain ⟨hne, hchars, -, -, -⟩ := hgs
    exact tokenizeCore_display_atom s.data hne
      (fun c hc => ⟨(hchars c hc).1, (hchars c hc).2.2.2, (hchars c hc).2.1,
        (hchars c hc).2.2.1⟩) rest hrest
  | list items hall ih =>
    intro rest hrest
    have inner : ∀ (its : List Node),
        (∀ x ∈ its, ∀ r, TokBoundary r →
          tokenizeCore (displayChars x ++ r) [] false
            = nodeTokens x ++ tokenizeCore r [] false) →
        ∀ r', tokenizeCore (displayCharsList its ++ ')' :: r') [] false
            = nodeTokensList its ++ tokenizeCore (')' :: r') [] false := by
      intro its
      induction its with
      | nil => intro _ r'; rw [show displayCharsList [] = [] from rfl]; rfl
      | cons x xs ihx =>
        intro helem r'
        cases xs with
        | nil =>
          rw [show displayCharsList [x] = displayChars x from rfl]
          rw [helem x (List.mem_cons_self x []) (')' :: r') (Or.inr (Or.inr ⟨r', rfl⟩))]
          simp [nodeTokensList]
        | cons y ys =>
          rw [show displayCharsList (x :: y :: ys)
              = displayChars x ++ ' ' :: displayCharsList (y :: ys) from rfl]
          rw [show (displayChars x ++ ' ' :: displayCharsList (y :: ys)) ++ ')' :: r'
              = displayChars x ++ ' ' :: (displayCharsList (y :: ys) ++ ')' :: r') from by simp]
          rw [helem x (List.mem_cons_self x (y :: ys)) _ (Or.inr (Or.inl ⟨_, rfl⟩))]
          rw [tokenizeCore, if_neg (by decide), if_neg (by decide), if_pos (by decide)]
          rw [show splitWs ([] : List Char) = [] from rfl]
          rw [ihx (fun z hz => helem z (List.mem_cons_of_mem _ hz)) r']
          simp [nodeTokensList]
    rw [show displayChars (.list items) = '(' :: displayCharsList items ++ [')'] from rfl]
    rw [show ('(' :: displayCharsList items ++ [')']) ++ rest
        = '(' :: (displayCharsList items ++ ')' :: rest) from by simp]
    rw [tokenizeCore, if_neg (by decide), if_pos (by decide)]
    rw [show splitWs ([] : List Char) = [] from rfl]
    rw [inner items ih rest]
    rw [tokenizeCore, if_neg (by decide), if_pos (by decide)]
    rw [show splitWs ([] : List Char) = [] from rfl]
    rw [nodeTokens_list_eq]
    simp

/-! ## Parsing the token list of a displayed node -/

theorem nodeTokens_ne_nil (n : Node) : nodeTokens n ≠ [] := by
  cases n <;> simp [nodeTokens]

theorem nodeTokens_head_not_paren (n : Node) (hg : GoodNode n) (t : List Char)
    (ts : List (List Char)) (hcons : nodeTokens n = t :: ts) : t ≠ [')'] := by
  cases hg with
  | bool b =>
    cases b
    · rw [show nodeTokens (Node.bool false) = [['#', 'f']] from rfl] at hcons
      rw [← (List.cons.inj hcons).1]
      decide
    · rw [show nodeTokens (Node.bool true) = [['#', 't']] from rfl] at hcons
      rw [← (List.cons.inj hcons).1]
      decide
  | num m hm =>
    have hden : ((m : ℚ)).den = 1 := Rat.den_intCast m
    obtain ⟨-, hne, hmem⟩ := natDigits_spec ((m : ℚ)).num.natAbs
    rw [show nodeTokens (.number (.finite (m : ℚ)))
        = [f64DisplayChars (.finite (m : ℚ))] from rfl] at hcons
    rw [← (List.cons.inj hcons).1]
    rw [f64DisplayChars_finite, if_pos hden]
    obtain ⟨c, cs, hdg⟩ := List.exists_cons_of_ne_nil hne
    have hc := decimalDigits_facts c (hmem c (by rw [hdg]; exact List.mem_cons_self c cs))
    by_cases hlt : ((m : ℚ)).num < 0
    · rw [if_pos hlt]
      intro hd
      exact absurd (List.cons.inj hd).1 (by decide)
    · rw [if_neg hlt, hdg]
      intro hd
      exact (hc.2.2.2.2.2.2.1).2.2.2 (List.cons.inj hd).1
  | str s hq =>
    rw [show nodeTokens (.str s) = ['"' :: s.data ++ ['"']] from rfl] at hcons
    rw [← (List.cons.inj hcons).1]
    intro hd
    exact absurd (List.cons.inj hd).1 (by decide)
  | symbol s hgs =>
    obtain ⟨hne, hchars, -, -, -⟩ := hgs
    rw [show nodeTokens (.symbol s) = [s.data] from rfl] at hcons
    rw [← (List.cons.inj hcons).1]
    obtain ⟨c, cs, hdg⟩ := List.exists_cons_of_ne_nil hne
    rw [hdg]
    intro hd
    exact (hchars c (by rw [hdg]; exact List.mem_cons_self c cs)).2.2.1 (List.cons.inj hd).1
  | list items hall =>
    rw [nodeTokens_list_eq] at hcons
    rw [← (List.cons.inj hcons).1]
    decide

theorem parseExprF_display (n : Node) (hg : GoodNode n) :
    ∀ (rest : List (List Char)) (fuel : Nat), 2 * (nodeTokens n).length ≤ fuel →
      parseExprF fuel (nodeTokens n ++ rest) = .ok (n, rest) := by
  induction hg with
  | bool b =>
    intro rest fuel hfuel
    obtain ⟨f, rfl⟩ : ∃ f, fuel = f + 1 := ⟨fuel - 1, by simp [nodeTokens] at hfuel; omega⟩
    rw [show nodeTokens (.bool b) ++ rest = displayChars (.bool b) :: rest from rfl]
    rw [parseExprF]
    rw [if_neg (by cases b <;> decide), if_neg (by cases b <;> decide)]
    rw [parseAtom_bool]
  | num m hm =>
    intro rest fuel hfuel
    obtain ⟨f, rfl⟩ : ∃ f, fuel = f + 1 := ⟨fuel - 1, by simp [nodeTokens] at hfuel; omega⟩
    rw [show nodeTokens (.number (.finite (m : ℚ))) ++ rest
        = f64DisplayChars (.finite (m : ℚ)) :: rest from rfl]
    have hnp : nodeTokens (.number (.finite (m : ℚ)))
        = f64DisplayChars (.finite (m : ℚ)) :: [] := rfl
    have hclose := nodeTokens_head_not_paren _ (GoodNode.num m hm) _ _ hnp
    have hopen : f64DisplayChars (.finite (m : ℚ)) ≠ ['('] := by
      have hden : ((m : ℚ)).den = 1 := Rat.den_intCast m
      obtain ⟨-, hne, hmem⟩ := natDigits_spec ((m : ℚ)).num.natAbs
      rw [f64DisplayChars_finite, if_pos hden]
      obtain ⟨c, cs, hdg⟩ := List.exists_cons_of_ne_nil hne
      have hc := decimalDigits_facts c (hmem c (by rw [hdg]; exact List.mem_cons_self c cs))
      by_cases hlt : ((m : ℚ)).num < 0
      · rw [if_pos hlt]
        intro hd
        exact absurd (List.cons.inj hd).1 (by decide)
      · rw [if_neg hlt, hdg]
        intro hd
        exact (hc.2.2.2.2.2.2.1).2.2.1 (List.cons.inj hd).1
    rw [parseExprF, if_neg hopen, if_neg hclose]
    rw [parseAtom_int]
  | str s hq =>
    intro rest fuel hfuel
    obtain ⟨f, rfl⟩ : ∃ f, fuel = f + 1 := ⟨fuel - 1, by simp [nodeTokens] at hfuel; omega⟩
    rw [show nodeTokens (.str s) ++ rest = ('"' :: s.data ++ ['"']) :: rest from rfl]
    rw [parseExprF]
    rw [if_neg (by intro hd; exact absurd (List.cons.inj hd).1 (by decide))]
    rw [if_neg (by intro hd; exact absurd (List.cons.inj hd).1 (by decide))]
    rw [parseAtom_str s hq]
  | symbol s hgs =>
    intro rest fuel hfuel
    obtain ⟨f, rfl⟩ : ∃ f, fuel = f + 1 := ⟨fuel - 1, by simp [nodeTokens] at hfuel; omega⟩
    obtain ⟨hne, hchars, ht, hf, hpf⟩ := hgs
    obtain ⟨c, cs, hdg⟩ := List.exists_cons_of_ne_nil hne
    rw [show nodeTokens (.symbol s) ++ rest = s.data :: rest from rfl]
    rw [parseExprF]
    rw [if_neg (by
      rw [hdg]; intro hd
      exact (hchars c (by rw [hdg]; exact List.mem_cons_self c cs)).2.1 (List.cons.inj hd).1)]
    rw [if_neg (by
      rw [hdg]; intro hd
      exact (hchars c (by rw [hdg]; exact List.mem_cons_self c cs)).2.2.1 (List.cons.inj hd).1)]
    rw [parseAtom_symbol s ⟨hne, hchars, ht, hf, hpf⟩]
  | list items hall ih =>
    intro rest fuel hfuel
    have hlen : (nodeTokens (.list items)).length
        = (nodeTokensList items).length + 2 := by
      rw [nodeTokens_list_eq]; simp
    obtain ⟨f, rfl⟩ : ∃ f, fuel = f + 1 := ⟨fuel - 1, by omega⟩
    have inner : ∀ (its : List Node),
        (∀ x ∈ its, GoodNode x) →
        (∀ x (hx : x ∈ its), ∀ (r : List (List Char)) (fl : Nat),
          2 * (nodeTokens x).length ≤ fl →
          parseExprF fl (nodeTokens x ++ r) = .ok (x, r)) →
        ∀ (r : List (List Char)) (fl : Nat), 2 * (nodeTokensList its).length + 2 ≤ fl →
          parseListF fl (nodeTokensList its ++ [')'] :: r) = .ok (its, r) := by
      intro its
      induction its with
      | nil =>
        intro _ _ r fl hfl
        obtain ⟨f2, rfl⟩ : ∃ f2, fl = f2 + 1 := ⟨fl - 1, by omega⟩
        rw [show nodeTokensList [] ++ [')'] :: r = [')'] :: r from rfl]
        rw [parseListF, if_pos rfl]
      | cons x xs ihx =>
        intro hits helem r fl hfl
        have hxg := hits x (List.mem_cons_self x xs)
        have hlenx : 1 ≤ (nodeTokens x).length :=
          List.length_pos.mpr (nodeTokens_ne_nil x)
        have hlens : (nodeTokensList (x :: xs)).length
            = (nodeTokens x).length + (nodeTokensList xs).length := by
          rw [show nodeTokensList (x :: xs) = nodeTokens x ++ nodeTokensList xs from rfl]
          simp
        obtain ⟨f2, rfl⟩ : ∃ f2, fl = f2 + 1 := ⟨fl - 1, by omega⟩
        obtain ⟨t, ts, hcons⟩ := List.exists_cons_of_ne_nil (nodeTokens_ne_nil x)
        rw [show nodeTokensList (x :: xs) ++ [')'] :: r
            = nodeTokens x ++ (nodeTokensList xs ++ [')'] :: r) from by
          rw [show nodeTokensList (x :: xs) = nodeTokens x ++ nodeTokensList xs from rfl]
          simp]
        rw [hcons, List.cons_append, parseListF]
        rw [if_neg (nodeTokens_head_not_paren x hxg t ts hcons)]
        rw [← List.cons_append, ← hcons]
        rw [helem x (List.mem_cons_self x xs) _ f2 (by omega)]
        simp only []
        rw [ihx (fun z hz => hits z (List.mem_cons_of_mem _ hz))
          (fun z hz => helem z (List.mem_cons_of_mem _ hz)) r f2 (by omega)]
    rw [show nodeTokens (.list items) ++ rest
        = ['('] :: (nodeTokensList items ++ [')'] :: rest) from by
      rw [nodeTokens_list_eq]; simp]
    rw [parseExprF, if_pos rfl]
    rw [inner items hall ih rest f (by omega)]

/-- The display of a round-trippable node neither starts nor ends with
whitespace, so `parse`'s trim leaves it unchanged. -/
theorem trim_display (n : Node) (hg : GoodNode n) :
    trimChars (displayChars n) = displayChars n := by
  have hplain : ∀ cs : List Char, (∀ c ∈ cs, PlainChar c) → cs ≠ [] →
      trimChars cs = cs := by
    intro cs hp hne
    obtain ⟨c, cs', rfl⟩ := List.exists_cons_of_ne_nil hne
    unfold trimChars
    rw [List.dropWhile_cons]
    rw [(hp c (List.mem_cons_self c cs')).1]
    simp only [Bool.false_eq_true, if_false]
    rcases hback : (c :: cs').reverse with _ | ⟨b, bs⟩
    · exact absurd hback (by simp)
    · have hbmem : b ∈ c :: cs' := by
        rw [← List.mem_reverse, hback]; exact List.mem_cons_self b bs
      simp only [List.dropWhile_cons, (hp b hbmem).1, Bool.false_eq_true, if_false]
      rw [← hback, List.reverse_reverse]
  cases hg with
  | bool b => cases b <;> rfl
  | num m hm =>
    exact hplain _ (displayChars_int_plain m) (by
      have hden : ((m : ℚ)).den = 1 := Rat.den_intCast m
      obtain ⟨-, hne, -⟩ := natDigits_spec ((m : ℚ)).num.natAbs
      rw [show displayChars (.number (.finite (m : ℚ)))
          = f64DisplayChars (.finite (m : ℚ)) from rfl]
      rw [f64DisplayChars_finite, if_pos hden]
      by_cases hlt : ((m : ℚ)).num < 0
      · rw [if_pos hlt]; exact List.cons_ne_nil _ _
      · rw [if_neg hlt]; exact hne)
  | str s hq =>
    unfold trimChars
    rw [show displayChars (.str s) = '"' :: (s.data ++ ['"']) from by simp [displayChars]]
    rw [List.dropWhile_cons]
    simp only [show isUniWs '"' = false from rfl, Bool.false_eq_true, if_false]
    rw [show ('"' :: (s.data ++ ['"'])).reverse = '"' :: ('"' :: s.data).reverse from by simp]
    rw [List.dropWhile_cons]
    simp only [show isUniWs '"' = false from rfl, Bool.false_eq_true, if_false]
    simp
  | symbol s hgs =>
    obtain ⟨hne, hchars, -, -, -⟩ := hgs
    exact hplain s.data
      (fun c hc => ⟨(hchars c hc).1, (hchars c hc).2.2.2, (hchars c hc).2.1,
        (hchars c hc).2.2.1⟩) hne
  | list items hall =>
    unfold trimChars
    rw [show displayChars (.list items) = '(' :: (displayCharsList items ++ [')'])
        from by simp [displayChars]]
    rw [List.dropWhile_cons]
    simp only [show isUniWs '(' = false from rfl, Bool.false_eq_true, if_false]
    rw [show ('(' :: (displayCharsList items ++ [')'])).reverse
        = ')' :: ('(' :: displayCharsList items).reverse from by simp]
    rw [List.dropWhile_cons]
    simp only [show isUniWs ')' = false from rfl, Bool.false_eq_true, if_false]
    simp

/-- **C8** (amended): parsing is a left inverse of canonical display on the
fragment `GoodNode`: Booleans, integer-valued Numbers of magnitude at most
2^53, Strs without a quote character, Symbols that re-lex as themselves
(nonempty, free of parens, quotes and of **Unicode** whitespace — the set
`flush_buf`'s trim/split uses, so e.g. a Symbol containing U+000B is
excluded — not a boolean literal and not number-shaped), and Lists of these
(within the 64 KiB source cap).  The counterexample shows the claim fails
outside the fragment — `Nil` re-parses as the symbol `nil` — and a Str
containing `"` breaks the tokenizer since display does not escape
quotes. -/
theorem spl_c8_amended (n : Node) (hg : GoodNode n)
    (hsz : (displayStr n).utf8ByteSize ≤ 65536) :
    parse (displayStr n) = .ok n := by
  unfold parse
  rw [if_neg (by omega : ¬ ((displayStr n).utf8ByteSize > 65536))]
  rw [show (displayStr n).data = displayChars n from rfl]
  rw [trim_display n hg]
  unfold tokenize
  have htok := tokenizeCore_display n hg [] (Or.inl rfl)
  rw [List.append_nil] at htok
  rw [htok]
  rw [show tokenizeCore [] [] false = [] from rfl]
  rw [List.append_nil]
  simp only [List.isEmpty_eq_true, nodeTokens_ne_nil n, Bool.false_eq_true, if_false]
  have hp := parseExprF_display n hg [] (2 * (nodeTokens n).length + 1) (by omega)
  rw [List.append_nil] at hp
  rw [hp]

theorem spl_c8_amended_witness :
    parse (displayStr (.list [.symbol "and", .bool true, .str "a b",
        .number (.finite ((5 : Int) : ℚ)), .list []]))
      = .ok (.list [.symbol "and", .bool true, .str "a b",
        .number (.finite ((5 : Int) : ℚ)), .list []]) := by
  apply spl_c8_amended
  · refine GoodNode.list _ ?_
    intro x hx
    fin_cases hx
    · exact GoodNode.symbol "and" ⟨by decide, by decide, by decide, by decide, by decide⟩
    · exact GoodNode.bool true
    · exact GoodNode.str "a b" (by decide)
    · exact GoodNode.num 5 (by norm_num)
    · exact GoodNode.list [] (by intro x hx; cases hx)
  · decide
